import Mathlib

/-!
# Radar hub: polar grid and detection parsing

A shallow embedding of `RadarModel` (`src/radar_app/src/radar.cpp`), of the packet handlers
and the command relay of `Controller` (`src/radar_app/src/controller.cpp`), of
`UdpClient::send` (`src/radar_app/src/udp_client.cpp`) and of the receive loop of `SerialPort`
(`src/radar_app/src/serial.cpp`).

* Finite `float`/`double` values are the rationals they denote; every arithmetic operation of
  the source is followed by IEEE-754 round-to-nearest-even (`fl32`, `fl64`). NaN and the
  infinities are outside the model.
* `uint32_t` values are naturals reduced modulo `2^32` where the source can wrap.
* Time points are tick counts of `std::chrono::steady_clock`, taken to be nanoseconds; the
  clock reading of each call is an argument.
* The mutex and the threads are not modelled: every operation is a function on the state,
  the receive loop is a function of the successive results of `read`, and sending is the list
  of `sendto` calls made.
-/

namespace Radar

/-! ## Floating-point rounding -/

/-- Round a rational to the nearest integer, ties to the even neighbour. -/
def roundHalfEven (n : ℚ) : ℤ :=
  if 2 * (n - ⌊n⌋) < 1 then ⌊n⌋
  else if 1 < 2 * (n - ⌊n⌋) then ⌊n⌋ + 1
  else if ⌊n⌋ % 2 = 0 then ⌊n⌋ else ⌊n⌋ + 1

/-- Exponent of the binade of a positive value, not below the minimum exponent. -/
def binadeExp (emin : ℤ) (x : ℚ) : ℤ := max (Int.log 2 x) emin

/-- Rounding of a non-negative value to `p` significant bits. -/
def roundPos (p : ℕ) (emin : ℤ) (x : ℚ) : ℚ :=
  (roundHalfEven (x / 2 ^ (binadeExp emin x - ((p : ℤ) - 1))) : ℚ) * 2 ^ (binadeExp emin x - ((p : ℤ) - 1))

/-- IEEE-754 round-to-nearest-even onto the binary format with `p` significant bits. -/
def roundNE (p : ℕ) (emin : ℤ) (x : ℚ) : ℚ :=
  if x < 0 then - roundPos p emin (-x) else roundPos p emin x

/-- Rounding to `float` (binary32: 24 significant bits, least normal exponent -126). -/
def fl32 (x : ℚ) : ℚ := roundNE 24 (-126) x

/-- Rounding to `double` (binary64: 53 significant bits, least normal exponent -1022). -/
def fl64 (x : ℚ) : ℚ := roundNE 53 (-1022) x

/-! ## Radar model (`src/radar_app/src/radar.cpp`) -/

/-- Conversion of a rational to an integer by discarding the fractional part (toward zero). -/
def truncQ (x : ℚ) : ℤ := if 0 ≤ x then ⌊x⌋ else ⌈x⌉

/-- C `fmod`: the remainder has the sign of the dividend and is computed exactly. -/
def fmod (x y : ℚ) : ℚ := x - (truncQ (x / y) : ℚ) * y

/-- `static_cast<uint32_t>` of a floating-point value: the fractional part is discarded.
When the truncated value is not representable the conversion is undefined in C++; the
32-bit value the platform then produces is supplied by `ub`. -/
def castU32 (ub : ℤ → ℕ) (x : ℚ) : ℕ :=
  if 0 ≤ truncQ x ∧ truncQ x < 2 ^ 32 then (truncQ x).toNat else ub (truncQ x) % 2 ^ 32

/-- `std::chrono::hours(1)` in ticks of the steady clock (nanoseconds). -/
def hour : ℤ := 3600 * 10 ^ 9

/-- State of `RadarModel`: time points are tick counts of the steady clock, the two
resolutions are `uint32_t` values, the sweep angle is a finite `float`. -/
structure RadarModel where
  m_cell_last_hit : List ℤ
  m_radial_res : ℕ
  m_angular_res : ℕ
  m_sweep_deg : ℚ
deriving DecidableEq

namespace RadarModel

/-- Constructor `RadarModel::RadarModel(angular, radial)` run at clock time `now`. -/
def construct (now : ℤ) (angular radial : ℕ) : RadarModel where
  m_cell_last_hit := List.replicate ((radial * angular) % 2 ^ 32) (now - hour)
  m_radial_res := radial
  m_angular_res := angular
  m_sweep_deg := 0

/-- `RadarModel::set_current_sweep_angle(deg)`. -/
def set_current_sweep_angle (s : RadarModel) (deg : ℚ) : RadarModel :=
  { s with m_sweep_deg := deg }

/-- Angular sector index computed by `add_detection` (double precision). -/
def angular_idx (ub : ℤ → ℕ) (s : RadarModel) (deg : ℚ) : ℕ :=
  castU32 ub (fl64 (fl64 (fmod deg 360 / 360) * (s.m_angular_res : ℚ)))

/-- Radial ring index computed by `add_detection` (single precision), after the clamp
`if (radial_idx >= m_radial_res) radial_idx = m_radial_res - 1`. -/
def radial_idx (ub : ℤ → ℕ) (s : RadarModel) (dist : ℚ) : ℕ :=
  let normalized_dist : ℚ := min 1 (max 0 dist)
  let r := castU32 ub (fl32 (normalized_dist * fl32 (s.m_radial_res : ℚ)))
  if r ≥ s.m_radial_res then (s.m_radial_res + 2 ^ 32 - 1) % 2 ^ 32 else r

/-- Flattened index `angular_idx * m_radial_res + radial_idx` in `uint32_t` arithmetic. -/
def cell_index (ub : ℤ → ℕ) (s : RadarModel) (deg dist : ℚ) : ℕ :=
  (angular_idx ub s deg * s.m_radial_res + radial_idx ub s dist) % 2 ^ 32

/-- `RadarModel::add_detection(deg, dist)` run at clock time `now`. -/
def add_detection (ub : ℤ → ℕ) (s : RadarModel) (now : ℤ) (deg dist : ℚ) : RadarModel :=
  if cell_index ub s deg dist < s.m_cell_last_hit.length then
    { s with m_cell_last_hit := s.m_cell_last_hit.set (cell_index ub s deg dist) now }
  else s

/-- Elapsed seconds reported for one cell: whole milliseconds (`duration_cast` truncates),
converted to `float` and divided by `1000.0f`. -/
def elapsed (now time_point : ℤ) : ℚ :=
  fl32 (fl32 (((now - time_point).tdiv (10 ^ 6) : ℤ) : ℚ) / 1000)

/-- `RadarModel::get_cell_hit_times()` run at clock time `now`. -/
def get_cell_hit_times (s : RadarModel) (now : ℤ) : List ℚ :=
  s.m_cell_last_hit.map (fun time_point => elapsed now time_point)

/-- `RadarModel::get_current_sweep_angle()`. -/
def get_current_sweep_angle (s : RadarModel) : ℚ := s.m_sweep_deg

/-- Invariant established by the constructor and kept by every operation. -/
def WellFormed (s : RadarModel) : Prop :=
  s.m_angular_res < 2 ^ 32 ∧ s.m_radial_res < 2 ^ 32 ∧
    s.m_cell_last_hit.length = (s.m_radial_res * s.m_angular_res) % 2 ^ 32

end RadarModel

/-! ## Controller (`src/radar_app/src/controller.cpp`)

`sscanf` belongs to the C library; its `"%f,%f"` behaviour is written out here after the
C standard for decimal input. -/

/-- `std::string::c_str()` seen as a C string: the characters before the first NUL. -/
def c_str (packet : List Char) : List Char := packet.takeWhile (fun c => c != Char.ofNat 0)

/-- Flattening `angular_idx * m_radial_res + radial_idx` of a bucket in `uint32_t`
arithmetic, as computed in `add_detection`. -/
def flat_index (m_radial_res angular_idx radial_idx : ℕ) : ℕ :=
  (angular_idx * m_radial_res + radial_idx) % 2 ^ 32

/-! ## UDP transport (`src/radar_app/src/udp_client.cpp`)

`inet_pton` belongs to the C library; its behaviour for `AF_INET` is written out here after
the reference implementation (dotted quad, decimal octets up to 255, no leading zero). -/

/-- Scanner state of `inet_pton` for `AF_INET`: the octets completed so far, the octet being
read, whether it has a digit yet, and how many octets were started. -/
structure PtonState where
  done : List ℕ
  cur : ℕ
  saw_digit : Bool
  octets : ℕ

/-- One character of the `inet_pton` scan; `none` when the text is rejected. -/
def inet_pton4_step (st : PtonState) (ch : Char) : Option PtonState :=
  if ch.isDigit then
    if st.saw_digit && st.cur == 0 then none
    else if st.cur * 10 + (ch.toNat - 48) > 255 then none
    else if !st.saw_digit then
      (if st.octets + 1 > 4 then none
       else some { st with cur := st.cur * 10 + (ch.toNat - 48), octets := st.octets + 1,
                           saw_digit := true })
    else some { st with cur := st.cur * 10 + (ch.toNat - 48) }
  else if ch == '.' && st.saw_digit then
    if st.octets == 4 then none
    else some { done := st.done ++ [st.cur], cur := 0, saw_digit := false, octets := st.octets }
  else none

/-- Call `inet_pton(AF_INET, src, &addr)`: the address written on success (most significant
octet first), `none` when the call returns 0 and leaves `addr` untouched. -/
def inet_pton4 (src : List Char) : Option ℕ :=
  match src.foldlM inet_pton4_step { done := [], cur := 0, saw_digit := false, octets := 0 } with
  | none => none
  | some st =>
    if st.octets < 4 then none
    else some ((st.done ++ [st.cur]).foldl (fun acc o => acc * 256 + o) 0)

/-- Conversion `htons(port)` of an `int` port: the 16-bit port number put in `sin_port`. -/
def htons (port : ℤ) : ℕ := (port % 65536).toNat

/-- One call of `sendto`: the destination address and port of the `sockaddr_in` and the
bytes handed over. -/
structure Datagram where
  sin_addr : ℕ
  sin_port : ℕ
  message : List Char
deriving DecidableEq

/-- State of `UdpClient` that `send` reads. -/
structure UdpClient where
  m_socket_fd : ℤ
  m_is_listening : Bool

/-- `UdpClient::send(address, port, message)`: the calls of `sendto` it makes. The
`sockaddr_in` is zero-initialised and the result of `inet_pton` is not looked at. -/
def UdpClient.send (u : UdpClient) (address : List Char) (port : ℤ) (message : List Char) :
    List Datagram :=
  if u.m_socket_fd < 0 then []
  else [{ sin_addr := (inet_pton4 (c_str address)).getD 0, sin_port := htons port,
          message := message }]

/-! ## Command relay (`src/radar_app/src/controller.cpp`) -/

def RADAR_LISTENING_PORT : ℤ := 8888

def RADAR_COMMAND_PORT : ℤ := 8889

/-- State of `Controller` used by the command relay. -/
structure Controller where
  m_udp_client : Option UdpClient
  m_radar_ip : List Char

namespace Controller

/-- `Controller::set_radar_unit_ip(ip)`. -/
def set_radar_unit_ip (c : Controller) (ip : List Char) : Controller :=
  { c with m_radar_ip := ip }

/-- `Controller::send_command_to_radar(command)`: the calls of `sendto` it causes. -/
def send_command_to_radar (c : Controller) (command : List Char) : List Datagram :=
  if c.m_radar_ip.isEmpty || c.m_udp_client.isNone then []
  else
    match c.m_udp_client with
    | some u => u.send c.m_radar_ip RADAR_COMMAND_PORT command
    | none => []

/-- `Controller::handle_serial_data(data, size)`: `rfind("IR:", 0) == 0` holds exactly when
the message starts with `IR:`; the command is `substr(3)`. -/
def handle_serial_data (c : Controller) (data : List Char) : List Datagram :=
  if data.take 3 = ['I', 'R', ':'] then c.send_command_to_radar (data.drop 3) else []

end Controller

/-! ## Serial listener (`src/radar_app/src/serial.cpp`) -/

/-- Search `line_buffer.find('\n')`: the position of the first line feed, if any. -/
def find_newline (line_buffer : List Char) : Option ℕ :=
  if line_buffer.indexOf '\n' < line_buffer.length then some (line_buffer.indexOf '\n') else none

/-- The trim `if (!line.empty() && line.back() == '\r') line.pop_back()`. -/
def trim_cr (line : List Char) : List Char :=
  if !line.isEmpty && line.getLast? == some '\r' then line.dropLast else line

/-- The inner loop `while ((pos = line_buffer.find('\n')) != npos)`: the payloads passed to
the callback, in order, and the buffer left afterwards. -/
def process_lines (line_buffer : List Char) : List (List Char) × List Char :=
  match h : find_newline line_buffer with
  | none => ([], line_buffer)
  | some pos =>
    if !(trim_cr (line_buffer.take pos)).isEmpty then
      (trim_cr (line_buffer.take pos) :: (process_lines (line_buffer.drop (pos + 1))).1,
        (process_lines (line_buffer.drop (pos + 1))).2)
    else process_lines (line_buffer.drop (pos + 1))
termination_by line_buffer.length
decreasing_by
  all_goals simp_wf
  all_goals unfold find_newline at h
  all_goals split at h
  all_goals simp at h
  all_goals omega

/-- One iteration of the receive loop in which `read` returned the bytes `chunk` (`n` is
their number): the chunk is appended as a C string, then complete lines are processed. -/
def rx_iteration (line_buffer : List Char) (chunk : List Char) : List (List Char) × List Char :=
  if chunk.length > 0 then process_lines (line_buffer ++ c_str chunk) else ([], line_buffer)

/-- The receive loop over the successive results of `read`: all callback payloads in order
and the final buffer. -/
def rx_loop (line_buffer : List Char) : List (List Char) → List (List Char) × List Char
  | [] => ([], line_buffer)
  | chunk :: reads =>
    ((rx_iteration line_buffer chunk).1 ++ (rx_loop (rx_iteration line_buffer chunk).2 reads).1,
      (rx_loop (rx_iteration line_buffer chunk).2 reads).2)

/-! ## Lines of a byte stream, used to state the framing properties -/

/-- Scan of a byte stream with `cur` the bytes since the last line feed: the byte sequences
that precede each line feed, in order, and the bytes after the last line feed. -/
def scan_lines (cur : List Char) : List Char → List (List Char) × List Char
  | [] => ([], cur)
  | c :: s =>
    if c = '\n' then (cur :: (scan_lines [] s).1, (scan_lines [] s).2)
    else scan_lines (cur ++ [c]) s

/-- Payloads expected from complete lines: one trailing carriage return removed, empty lines
left out. -/
def deliver (lines : List (List Char)) : List (List Char) :=
  (lines.map trim_cr).filter (fun l => !l.isEmpty)

/-! ## Properties of the rounding functions -/

theorem roundHalfEven_floor_le (n : ℚ) : ⌊n⌋ ≤ roundHalfEven n := by
  unfold roundHalfEven
  split_ifs <;> omega

theorem roundHalfEven_le_floor_succ (n : ℚ) : roundHalfEven n ≤ ⌊n⌋ + 1 := by
  unfold roundHalfEven
  split_ifs <;> omega

theorem roundHalfEven_intCast (k : ℤ) : roundHalfEven (k : ℚ) = k := by
  unfold roundHalfEven
  simp

theorem roundHalfEven_mono {a b : ℚ} (h : a ≤ b) : roundHalfEven a ≤ roundHalfEven b := by
  have hf : ⌊a⌋ ≤ ⌊b⌋ := Int.floor_mono h
  rcases lt_or_eq_of_le hf with hlt | heq
  · calc roundHalfEven a ≤ ⌊a⌋ + 1 := roundHalfEven_le_floor_succ a
      _ ≤ ⌊b⌋ := hlt
      _ ≤ roundHalfEven b := roundHalfEven_floor_le b
  · unfold roundHalfEven
    rw [heq]
    have hab : 2 * (a - ⌊b⌋) ≤ 2 * (b - ⌊b⌋) := by linarith
    split_ifs <;> first | omega | linarith

theorem le_roundHalfEven {k : ℤ} {n : ℚ} (h : (k : ℚ) ≤ n) : k ≤ roundHalfEven n := by
  have := roundHalfEven_mono h
  rwa [roundHalfEven_intCast] at this

theorem roundHalfEven_le {k : ℤ} {n : ℚ} (h : n ≤ (k : ℚ)) : roundHalfEven n ≤ k := by
  have := roundHalfEven_mono h
  rwa [roundHalfEven_intCast] at this

theorem two_zpow_pos (z : ℤ) : (0 : ℚ) < 2 ^ z := zpow_pos (by norm_num) z

theorem binadeExp_mono (emin : ℤ) {x y : ℚ} (hx : 0 < x) (h : x ≤ y) :
    binadeExp emin x ≤ binadeExp emin y := by
  unfold binadeExp
  exact max_le_max (Int.log_mono_right hx h) le_rfl

theorem lt_two_zpow_binadeExp (emin : ℤ) (x : ℚ) : x < 2 ^ (binadeExp emin x + 1) := by
  have h1 : x < ((2 : ℕ) : ℚ) ^ (Int.log 2 x + 1) := Int.lt_zpow_succ_log_self (by norm_num) x
  have h2 : ((2 : ℕ) : ℚ) ^ (Int.log 2 x + 1) ≤ ((2 : ℕ) : ℚ) ^ (binadeExp emin x + 1) := by
    apply zpow_le_zpow_right₀ (by norm_num)
    unfold binadeExp
    have := le_max_left (Int.log 2 x) emin
    omega
  have h3 := lt_of_lt_of_le h1 h2
  simpa using h3

theorem roundPos_nonneg (p : ℕ) (emin : ℤ) {x : ℚ} (hx : 0 ≤ x) : 0 ≤ roundPos p emin x := by
  unfold roundPos
  apply mul_nonneg _ (two_zpow_pos _).le
  have h : ((0 : ℤ) : ℚ) ≤ x / 2 ^ (binadeExp emin x - ((p : ℤ) - 1)) := by
    simpa using div_nonneg hx (two_zpow_pos _).le
  exact_mod_cast le_roundHalfEven h

theorem roundPos_le_zpow (p : ℕ) (emin : ℤ) (x : ℚ) :
    roundPos p emin x ≤ 2 ^ (binadeExp emin x + 1) := by
  unfold roundPos
  set u : ℚ := 2 ^ (binadeExp emin x - ((p : ℤ) - 1)) with hu
  have hupos : 0 < u := two_zpow_pos _
  have hsplit : (2 : ℚ) ^ (binadeExp emin x + 1) = ((2 ^ p : ℤ) : ℚ) * u := by
    rw [hu]
    push_cast
    rw [← zpow_natCast, ← zpow_add₀ (by norm_num : (2 : ℚ) ≠ 0)]
    congr 1
    ring
  rw [hsplit]
  apply mul_le_mul_of_nonneg_right _ hupos.le
  have hlt := lt_two_zpow_binadeExp emin x
  rw [hsplit] at hlt
  have : x / u ≤ ((2 ^ p : ℤ) : ℚ) := by
    rw [div_le_iff₀ hupos]
    exact hlt.le
  exact_mod_cast roundHalfEven_le this

theorem zpow_le_roundPos (p : ℕ) (hp : 1 ≤ p) (emin : ℤ) {x : ℚ} (hx : 0 < x)
    (he : emin ≤ Int.log 2 x) : 2 ^ (binadeExp emin x) ≤ roundPos p emin x := by
  have hE : binadeExp emin x = Int.log 2 x := by
    unfold binadeExp
    exact max_eq_left he
  unfold roundPos
  rw [hE]
  set u : ℚ := 2 ^ (Int.log 2 x - ((p : ℤ) - 1)) with hu
  have hupos : 0 < u := two_zpow_pos _
  have hsplit : (2 : ℚ) ^ (Int.log 2 x) = ((2 ^ (p - 1) : ℤ) : ℚ) * u := by
    rw [hu]
    push_cast
    rw [← zpow_natCast, ← zpow_add₀ (by norm_num : (2 : ℚ) ≠ 0)]
    congr 1
    have : ((p - 1 : ℕ) : ℤ) = (p : ℤ) - 1 := by omega
    rw [this]
    ring
  rw [hsplit]
  apply mul_le_mul_of_nonneg_right _ hupos.le
  have hle : ((2 : ℕ) : ℚ) ^ (Int.log 2 x) ≤ x := Int.zpow_log_le_self (by norm_num) hx
  have hle2 : (2 : ℚ) ^ (Int.log 2 x) ≤ x := by simpa using hle
  rw [hsplit] at hle2
  have : ((2 ^ (p - 1) : ℤ) : ℚ) ≤ x / u := by
    rw [le_div_iff₀ hupos]
    exact hle2
  exact_mod_cast le_roundHalfEven this

theorem roundPos_mono (p : ℕ) (hp : 1 ≤ p) (emin : ℤ) {x y : ℚ} (hx : 0 ≤ x) (h : x ≤ y) :
    roundPos p emin x ≤ roundPos p emin y := by
  rcases eq_or_lt_of_le hx with h0 | hpos
  · subst h0
    have : roundPos p emin 0 = 0 := by
      unfold roundPos
      simp [roundHalfEven]
    rw [this]
    exact roundPos_nonneg p emin (le_trans hx h)
  · have hE := binadeExp_mono emin hpos h
    rcases eq_or_lt_of_le hE with heq | hlt
    · unfold roundPos
      rw [heq]
      apply mul_le_mul_of_nonneg_right _ (two_zpow_pos _).le
      have : x / 2 ^ (binadeExp emin y - ((p : ℤ) - 1)) ≤ y / 2 ^ (binadeExp emin y - ((p : ℤ) - 1)) :=
        div_le_div_of_nonneg_right h (two_zpow_pos _).le
      exact_mod_cast roundHalfEven_mono this
    · have hy : 0 < y := lt_of_lt_of_le hpos h
      have hey : emin ≤ Int.log 2 y := by
        by_contra hc
        have h1 : binadeExp emin y = emin := by
          unfold binadeExp
          exact max_eq_right (by omega)
        have h2 : emin ≤ binadeExp emin x := le_max_right _ _
        omega
      calc roundPos p emin x ≤ 2 ^ (binadeExp emin x + 1) := roundPos_le_zpow p emin x
        _ ≤ 2 ^ (binadeExp emin y) := zpow_le_zpow_right₀ (by norm_num) (by omega)
        _ ≤ roundPos p emin y := zpow_le_roundPos p hp emin hy hey

theorem roundNE_mono (p : ℕ) (hp : 1 ≤ p) (emin : ℤ) {x y : ℚ} (h : x ≤ y) :
    roundNE p emin x ≤ roundNE p emin y := by
  unfold roundNE
  by_cases hx : x < 0
  · by_cases hy : y < 0
    · rw [if_pos hx, if_pos hy]
      have := roundPos_mono p hp emin (x := -y) (y := -x) (by linarith) (by linarith)
      linarith
    · rw [if_pos hx, if_neg hy]
      have h1 := roundPos_nonneg p emin (x := -x) (by linarith)
      have h2 := roundPos_nonneg p emin (x := y) (by linarith)
      linarith
  · have hy : ¬ y < 0 := by linarith
    rw [if_neg hx, if_neg hy]
    exact roundPos_mono p hp emin (by linarith) h

theorem log_two_eq {x : ℚ} {e : ℤ} (h1 : (2 : ℚ) ^ e ≤ x) (h2 : x < 2 ^ (e + 1)) :
    Int.log 2 x = e := by
  have hx : 0 < x := lt_of_lt_of_le (two_zpow_pos e) h1
  have a : e ≤ Int.log 2 x := by
    rw [← Int.zpow_le_iff_le_log (by norm_num) hx]
    simpa using h1
  have b : Int.log 2 x < e + 1 := by
    rw [← Int.lt_zpow_iff_log_lt (by norm_num) hx]
    simpa using h2
  omega

theorem roundHalfEven_eq_of_near {n : ℚ} {r : ℤ} (h1 : 2 * (n - r) < 1) (h2 : -1 < 2 * (n - r)) :
    roundHalfEven n = r := by
  have hle : ((r - 1 : ℤ) : ℚ) ≤ n := by push_cast; linarith
  have hlt : n < ((r + 1 : ℤ) : ℚ) := by push_cast; linarith
  have hf1 : r - 1 ≤ ⌊n⌋ := Int.le_floor.mpr hle
  have hf2 : ⌊n⌋ < r + 1 := Int.floor_lt.mpr hlt
  have hcases : ⌊n⌋ = r - 1 ∨ ⌊n⌋ = r := by omega
  unfold roundHalfEven
  rcases hcases with hc | hc
  · rw [hc]
    push_cast
    have ha : ¬ 2 * (n - ((r : ℚ) - 1)) < 1 := by linarith
    have hb : 1 < 2 * (n - ((r : ℚ) - 1)) := by linarith
    rw [if_neg ha, if_pos hb]
    omega
  · rw [hc]
    rw [if_pos h1]

/-- Evaluation rule for `roundPos` away from ties. -/
theorem roundPos_eq_of_near (p : ℕ) (emin : ℤ) {x : ℚ} (e r : ℤ) (he : emin ≤ e)
    (h1 : (2 : ℚ) ^ e ≤ x) (h2 : x < 2 ^ (e + 1))
    (h3 : 2 * (x - r * 2 ^ (e - ((p : ℤ) - 1))) < 2 ^ (e - ((p : ℤ) - 1)))
    (h4 : - 2 ^ (e - ((p : ℤ) - 1)) < 2 * (x - r * 2 ^ (e - ((p : ℤ) - 1)))) :
    roundPos p emin x = r * 2 ^ (e - ((p : ℤ) - 1)) := by
  have hE : binadeExp emin x = e := by
    unfold binadeExp
    rw [log_two_eq h1 h2]
    exact max_eq_left he
  unfold roundPos
  rw [hE]
  set u : ℚ := 2 ^ (e - ((p : ℤ) - 1)) with hu
  have hupos : 0 < u := two_zpow_pos _
  congr 2
  apply roundHalfEven_eq_of_near
  · have : 2 * (x / u - r) = 2 * (x - r * u) / u := by field_simp; ring
    rw [this, div_lt_one hupos]
    exact h3
  · have : 2 * (x / u - r) = 2 * (x - r * u) / u := by field_simp; ring
    rw [this, lt_div_iff₀ hupos]
    linarith

theorem roundPos_exact (p : ℕ) (emin : ℤ) (m : ℕ) (k : ℤ) (hm : 0 < m) (hm2 : m < 2 ^ p)
    (hk : emin - ((p : ℤ) - 1) ≤ k) :
    roundPos p emin ((m : ℚ) * 2 ^ k) = (m : ℚ) * 2 ^ k := by
  have hx : (0 : ℚ) < (m : ℚ) * 2 ^ k := mul_pos (by exact_mod_cast hm) (two_zpow_pos k)
  have hlog : Int.log 2 ((m : ℚ) * 2 ^ k) < (p : ℤ) + k := by
    rw [← Int.lt_zpow_iff_log_lt (by norm_num) hx]
    push_cast
    rw [zpow_add₀ (by norm_num : (2 : ℚ) ≠ 0), zpow_natCast]
    apply mul_lt_mul_of_pos_right _ (two_zpow_pos k)
    exact_mod_cast hm2
  have hE : binadeExp emin ((m : ℚ) * 2 ^ k) - ((p : ℤ) - 1) ≤ k := by
    unfold binadeExp
    rcases max_cases (Int.log 2 ((m : ℚ) * 2 ^ k)) emin with ⟨h, _⟩ | ⟨h, _⟩ <;> rw [h] <;> omega
  unfold roundPos
  set E := binadeExp emin ((m : ℚ) * 2 ^ k) - ((p : ℤ) - 1) with hEdef
  obtain ⟨d, hd⟩ : ∃ d : ℕ, k = E + d := ⟨(k - E).toNat, by omega⟩
  have hq : (m : ℚ) * 2 ^ k / 2 ^ E = ((m * 2 ^ d : ℕ) : ℤ) := by
    rw [hd, zpow_add₀ (by norm_num : (2 : ℚ) ≠ 0), zpow_natCast]
    push_cast
    field_simp
    ring
  rw [hq, roundHalfEven_intCast]
  rw [hd, zpow_add₀ (by norm_num : (2 : ℚ) ≠ 0), zpow_natCast]
  push_cast
  ring

theorem roundNE_natCast (p : ℕ) (emin : ℤ) (hk : emin ≤ (p : ℤ) - 1) (n : ℕ) (hn : n < 2 ^ p) :
    roundNE p emin (n : ℚ) = n := by
  unfold roundNE
  have : ¬ ((n : ℚ) < 0) := by
    have : (0 : ℚ) ≤ n := Nat.cast_nonneg n
    linarith
  rw [if_neg this]
  rcases Nat.eq_zero_or_pos n with h0 | hpos
  · subst h0
    unfold roundPos
    simp [roundHalfEven]
  · have := roundPos_exact p emin n 0 hpos hn (by omega)
    simpa using this

theorem fl32_mono {x y : ℚ} (h : x ≤ y) : fl32 x ≤ fl32 y := roundNE_mono 24 (by norm_num) _ h
theorem fl64_mono {x y : ℚ} (h : x ≤ y) : fl64 x ≤ fl64 y := roundNE_mono 53 (by norm_num) _ h
theorem fl32_natCast (n : ℕ) (hn : n < 2 ^ 24) : fl32 (n : ℚ) = n :=
  roundNE_natCast 24 _ (by norm_num) n hn
theorem fl64_natCast (n : ℕ) (hn : n < 2 ^ 53) : fl64 (n : ℚ) = n :=
  roundNE_natCast 53 _ (by norm_num) n hn

/-! ## Properties of the radar model -/

theorem fmod_add_mul {a : ℚ} (k : ℕ) (h0 : 0 ≤ a) (h1 : a < 360) : fmod (a + 360 * k) 360 = a := by
  unfold fmod truncQ
  have hk : (0 : ℚ) ≤ k := Nat.cast_nonneg k
  have hnn : (0 : ℚ) ≤ (a + 360 * k) / 360 := by positivity
  rw [if_pos hnn]
  have hfl : ⌊(a + 360 * (k : ℚ)) / 360⌋ = (k : ℤ) := by
    rw [Int.floor_eq_iff]
    constructor
    · rw [le_div_iff₀ (by norm_num)]
      push_cast
      linarith
    · rw [div_lt_iff₀ (by norm_num)]
      push_cast
      linarith
  rw [hfl]
  push_cast
  ring

theorem fmod_of_lt {a : ℚ} (h0 : 0 ≤ a) (h1 : a < 360) : fmod a 360 = a := by
  have := fmod_add_mul 0 h0 h1
  simpa using this

/-- C3: for an angle `a` in `[0,360)` and any `k ≥ 0`, `add_detection(a + 360*k, d)` yields the
same model as `add_detection(a, d)` at the same clock time, whatever the distance and state. -/
theorem add_detection_angle_wraps (ub : ℤ → ℕ) (s : RadarModel) (now : ℤ) (a d : ℚ) (k : ℕ)
    (h0 : 0 ≤ a) (h1 : a < 360) :
    s.add_detection ub now (a + 360 * k) d = s.add_detection ub now a d := by
  unfold RadarModel.add_detection RadarModel.cell_index RadarModel.angular_idx
  rw [fmod_add_mul k h0 h1, fmod_of_lt h0 h1]

theorem add_detection_angle_wraps_witness :
    (0 : ℚ) ≤ 10 ∧ (10 : ℚ) < 360 ∧
      (RadarModel.construct 0 30 4).add_detection (fun _ => 0) 5 (10 + 360 * (1 : ℕ)) (1 / 2)
        = (RadarModel.construct 0 30 4).add_detection (fun _ => 0) 5 10 (1 / 2) :=
  ⟨by norm_num, by norm_num,
    add_detection_angle_wraps (fun _ => 0) (RadarModel.construct 0 30 4) 5 10 (1 / 2) 1
      (by norm_num) (by norm_num)⟩

theorem roundNE_zero (p : ℕ) (emin : ℤ) : roundNE p emin 0 = 0 := by
  unfold roundNE roundPos
  simp [roundHalfEven]

theorem roundNE_nonneg (p : ℕ) (hp : 1 ≤ p) (emin : ℤ) {x : ℚ} (hx : 0 ≤ x) :
    0 ≤ roundNE p emin x := by
  have := roundNE_mono p hp emin hx
  rwa [roundNE_zero] at this

theorem roundNE_dyadic (p : ℕ) (emin : ℤ) (m : ℕ) (k : ℤ) (hm2 : m < 2 ^ p)
    (hk : emin - ((p : ℤ) - 1) ≤ k) : roundNE p emin ((m : ℚ) * 2 ^ k) = (m : ℚ) * 2 ^ k := by
  rcases Nat.eq_zero_or_pos m with h0 | hpos
  · subst h0
    simp [roundNE_zero]
  · unfold roundNE
    have hx : (0 : ℚ) < (m : ℚ) * 2 ^ k := mul_pos (by exact_mod_cast hpos) (two_zpow_pos k)
    rw [if_neg (by linarith)]
    exact roundPos_exact p emin m k hpos hm2 hk

/-- A value the rounding leaves fixed lies on the grid of its binade. -/
theorem roundPos_fixed_grid (p : ℕ) (emin : ℤ) {x : ℚ} (e : ℤ) (he : emin ≤ e)
    (h1 : (2 : ℚ) ^ e ≤ x) (h2 : x < 2 ^ (e + 1)) (hfix : roundPos p emin x = x) :
    ∃ r : ℤ, x = (r : ℚ) * 2 ^ (e - ((p : ℤ) - 1)) := by
  have hE : binadeExp emin x = e := by
    unfold binadeExp
    rw [log_two_eq h1 h2]
    exact max_eq_left he
  unfold roundPos at hfix
  rw [hE] at hfix
  exact ⟨_, hfix.symm⟩

/-- The largest single-precision value below 360 is `360 - 2^-15`. -/
theorem fl32_fixed_lt_360 {x : ℚ} (hfix : fl32 x = x) (h1 : x < 360) :
    x ≤ 360 - 1 / 32768 := by
  by_contra hc
  push_neg at hc
  have hx : ¬ x < 0 := by linarith
  have hfix2 : roundPos 24 (-126) x = x := by
    unfold fl32 roundNE at hfix
    rwa [if_neg hx] at hfix
  obtain ⟨r, hr⟩ := roundPos_fixed_grid 24 (-126) 8 (by norm_num)
    (by norm_num; linarith) (by norm_num; linarith) hfix2
  have hu : ((2 : ℚ) ^ ((8 : ℤ) - (((24 : ℕ) : ℤ) - 1))) = 1 / 32768 := by
    norm_num [zpow_neg]
  rw [hu] at hr
  have hlt : (r : ℚ) < ((11796480 : ℤ) : ℚ) := by
    push_cast
    linarith
  have hlt2 : r < 11796480 := by exact_mod_cast hlt
  have hle : (r : ℚ) ≤ ((11796479 : ℤ) : ℚ) := by
    have : r ≤ 11796479 := by omega
    exact_mod_cast this
  push_cast at hle
  linarith

theorem truncQ_of_nonneg {x : ℚ} (h : 0 ≤ x) : truncQ x = ⌊x⌋ := by
  unfold truncQ
  rw [if_pos h]

theorem castU32_of_nonneg_lt (ub : ℤ → ℕ) {x : ℚ} (h0 : 0 ≤ x) (h1 : x < 2 ^ 32) :
    castU32 ub x = ⌊x⌋₊ := by
  unfold castU32
  rw [truncQ_of_nonneg h0]
  have hf0 : 0 ≤ ⌊x⌋ := Int.floor_nonneg.mpr h0
  have hf1 : ⌊x⌋ < 2 ^ 32 := by
    rw [Int.floor_lt]
    exact_mod_cast h1
  rw [if_pos ⟨hf0, hf1⟩]
  rfl

/-- For a single-precision angle in `[0,360)` the double-precision product stays below `A`. -/
theorem angular_product_lt {x : ℚ} (A : ℕ) (hA1 : 1 ≤ A) (hA2 : A < 2 ^ 32)
    (hfix : fl32 x = x) (h0 : 0 ≤ x) (h1 : x < 360) :
    0 ≤ fl64 (fl64 (x / 360) * (A : ℚ)) ∧ fl64 (fl64 (x / 360) * (A : ℚ)) < (A : ℚ) := by
  have hAq : (1 : ℚ) ≤ A := by exact_mod_cast hA1
  have hq0 : 0 ≤ fl64 (x / 360) := roundNE_nonneg 53 (by norm_num) _ (by positivity)
  have hq1 : fl64 (x / 360) ≤ 1 - 1 / 16777216 := by
    have hx := fl32_fixed_lt_360 hfix h1
    have hle : x / 360 ≤ ((16777215 : ℕ) : ℚ) * 2 ^ (-24 : ℤ) := by
      rw [div_le_iff₀ (by norm_num)]
      norm_num [zpow_neg]
      linarith
    have := fl64_mono hle
    unfold fl64 at this
    rw [roundNE_dyadic 53 (-1022) 16777215 (-24) (by norm_num) (by norm_num)] at this
    unfold fl64
    norm_num [zpow_neg] at this ⊢
    linarith
  constructor
  · exact roundNE_nonneg 53 (by norm_num) _ (mul_nonneg hq0 (by linarith))
  · have hprod : fl64 (x / 360) * (A : ℚ) ≤ (A : ℚ) - (A : ℚ) / 16777216 := by
      have := mul_le_mul_of_nonneg_right hq1 (by linarith : (0 : ℚ) ≤ A)
      linarith
    by_cases hsmall : A < 2 ^ 29
    · have hz : fl64 (((A * 2 ^ 24 - 1 : ℕ) : ℚ) * 2 ^ (-24 : ℤ))
          = ((A * 2 ^ 24 - 1 : ℕ) : ℚ) * 2 ^ (-24 : ℤ) := by
        unfold fl64
        exact roundNE_dyadic 53 (-1022) _ (-24) (by omega) (by norm_num)
      have hcast : ((A * 2 ^ 24 - 1 : ℕ) : ℚ) = (A : ℚ) * 16777216 - 1 := by
        have : 1 ≤ A * 2 ^ 24 := by omega
        rw [Nat.cast_sub this]
        push_cast
        norm_num
      have hle : fl64 (x / 360) * (A : ℚ) ≤ ((A * 2 ^ 24 - 1 : ℕ) : ℚ) * 2 ^ (-24 : ℤ) := by
        rw [hcast]
        norm_num [zpow_neg]
        linarith
      have := fl64_mono hle
      rw [hz, hcast] at this
      norm_num [zpow_neg] at this
      linarith
    · have hz : fl64 (((A * 2 ^ 21 - 1 : ℕ) : ℚ) * 2 ^ (-21 : ℤ))
          = ((A * 2 ^ 21 - 1 : ℕ) : ℚ) * 2 ^ (-21 : ℤ) := by
        unfold fl64
        exact roundNE_dyadic 53 (-1022) _ (-21) (by omega) (by norm_num)
      have hcast : ((A * 2 ^ 21 - 1 : ℕ) : ℚ) = (A : ℚ) * 2097152 - 1 := by
        have : 1 ≤ A * 2 ^ 21 := by omega
        rw [Nat.cast_sub this]
        push_cast
        norm_num
      have hbig : (536870912 : ℚ) ≤ A := by
        have : 536870912 ≤ A := by omega
        exact_mod_cast this
      have hle : fl64 (x / 360) * (A : ℚ) ≤ ((A * 2 ^ 21 - 1 : ℕ) : ℚ) * 2 ^ (-21 : ℤ) := by
        rw [hcast]
        norm_num [zpow_neg]
        linarith
      have := fl64_mono hle
      rw [hz, hcast] at this
      norm_num [zpow_neg] at this
      linarith

/-- Evaluation rule for `fl64` on a positive value away from ties. -/
theorem fl64_eq_of_near {x : ℚ} (e r : ℤ) (he : -1022 ≤ e)
    (h1 : (2 : ℚ) ^ e ≤ x) (h2 : x < 2 ^ (e + 1))
    (h3 : 2 * (x - r * 2 ^ (e - 52)) < 2 ^ (e - 52))
    (h4 : - 2 ^ (e - 52) < 2 * (x - r * 2 ^ (e - 52))) :
    fl64 x = r * 2 ^ (e - 52) := by
  have hx : ¬ x < 0 := not_lt.mpr (le_trans (two_zpow_pos e).le h1)
  unfold fl64 roundNE
  rw [if_neg hx]
  have := roundPos_eq_of_near 53 (-1022) e r he h1 h2 (by simpa using h3) (by simpa using h4)
  simpa using this

/-- Evaluation rule for `fl32` on a positive value away from ties. -/
theorem fl32_eq_of_near {x : ℚ} (e r : ℤ) (he : -126 ≤ e)
    (h1 : (2 : ℚ) ^ e ≤ x) (h2 : x < 2 ^ (e + 1))
    (h3 : 2 * (x - r * 2 ^ (e - 23)) < 2 ^ (e - 23))
    (h4 : - 2 ^ (e - 23) < 2 * (x - r * 2 ^ (e - 23))) :
    fl32 x = r * 2 ^ (e - 23) := by
  have hx : ¬ x < 0 := not_lt.mpr (le_trans (two_zpow_pos e).le h1)
  unfold fl32 roundNE
  rw [if_neg hx]
  have := roundPos_eq_of_near 24 (-126) e r he h1 h2 (by simpa using h3) (by simpa using h4)
  simpa using this

theorem fl32_zero : fl32 0 = 0 := roundNE_zero _ _
theorem fl64_zero : fl64 0 = 0 := roundNE_zero _ _

theorem elapsed_self (t : ℤ) : RadarModel.elapsed t t = 0 := by
  unfold RadarModel.elapsed
  simp [fl32_zero]

theorem radial_idx_lt (ub : ℤ → ℕ) (s : RadarModel) (dist : ℚ) (hR : 1 ≤ s.m_radial_res)
    (hR2 : s.m_radial_res < 2 ^ 32) : s.radial_idx ub dist < s.m_radial_res := by
  unfold RadarModel.radial_idx
  simp only
  split_ifs with h
  · have : (s.m_radial_res + 2 ^ 32 - 1) % 2 ^ 32 = s.m_radial_res - 1 := by omega
    omega
  · omega

theorem radial_idx_eq (ub : ℤ → ℕ) (s : RadarModel) (dist : ℚ) (hR : 1 ≤ s.m_radial_res)
    (hR2 : s.m_radial_res < 2 ^ 24) :
    s.radial_idx ub dist
      = min ⌊fl32 (min 1 (max 0 dist) * (s.m_radial_res : ℚ))⌋₊ (s.m_radial_res - 1) := by
  unfold RadarModel.radial_idx
  simp only
  rw [fl32_natCast _ hR2]
  set nd : ℚ := min 1 (max 0 dist) with hnd
  have hnd0 : 0 ≤ nd := le_min (by norm_num) (le_max_left _ _)
  have hnd1 : nd ≤ 1 := min_le_left _ _
  have hRq : (0 : ℚ) ≤ s.m_radial_res := Nat.cast_nonneg _
  have hv0 : 0 ≤ fl32 (nd * (s.m_radial_res : ℚ)) :=
    roundNE_nonneg 24 (by norm_num) _ (mul_nonneg hnd0 hRq)
  have hv1 : fl32 (nd * (s.m_radial_res : ℚ)) ≤ (s.m_radial_res : ℚ) := by
    have h : nd * (s.m_radial_res : ℚ) ≤ (s.m_radial_res : ℚ) := by nlinarith
    have := fl32_mono h
    rwa [fl32_natCast _ hR2] at this
  have hlt : fl32 (nd * (s.m_radial_res : ℚ)) < 2 ^ 32 := by
    have : (s.m_radial_res : ℚ) < 2 ^ 32 := by
      have : s.m_radial_res < 2 ^ 32 := by omega
      exact_mod_cast this
    linarith
  rw [castU32_of_nonneg_lt ub hv0 hlt]
  split_ifs with h
  · have : (s.m_radial_res + 2 ^ 32 - 1) % 2 ^ 32 = s.m_radial_res - 1 := by omega
    rw [this]
    omega
  · omega

theorem angular_idx_eq (ub : ℤ → ℕ) (s : RadarModel) {deg : ℚ} (hA1 : 1 ≤ s.m_angular_res)
    (hA2 : s.m_angular_res < 2 ^ 32) (hfix : fl32 deg = deg) (h0 : 0 ≤ deg) (h1 : deg < 360) :
    s.angular_idx ub deg = ⌊fl64 (fl64 (deg / 360) * (s.m_angular_res : ℚ))⌋₊ ∧
      ⌊fl64 (fl64 (deg / 360) * (s.m_angular_res : ℚ))⌋₊ < s.m_angular_res := by
  obtain ⟨hv0, hv1⟩ := angular_product_lt s.m_angular_res hA1 hA2 hfix h0 h1
  have hlt : fl64 (fl64 (deg / 360) * (s.m_angular_res : ℚ)) < 2 ^ 32 := by
    have : (s.m_angular_res : ℚ) < 2 ^ 32 := by exact_mod_cast hA2
    linarith
  constructor
  · unfold RadarModel.angular_idx
    rw [fmod_of_lt h0 h1, castU32_of_nonneg_lt ub hv0 hlt]
  · rw [Nat.floor_lt hv0]
    exact hv1

theorem add_detection_of_lt (ub : ℤ → ℕ) (s : RadarModel) (t : ℤ) (deg dist : ℚ)
    (h : s.cell_index ub deg dist < s.m_cell_last_hit.length) :
    s.add_detection ub t deg dist
      = { s with m_cell_last_hit := s.m_cell_last_hit.set (s.cell_index ub deg dist) t } := by
  unfold RadarModel.add_detection
  rw [if_pos h]

theorem fl64_104_div_360 : fl64 (104 / 360) = 5204159569405906 * 2 ^ (-54 : ℤ) := by
  have := fl64_eq_of_near (x := 104 / 360) (-2) 5204159569405906 (by norm_num)
    (by norm_num [zpow_neg]) (by norm_num [zpow_neg]) (by norm_num [zpow_neg])
    (by norm_num [zpow_neg])
  simpa using this

theorem fl64_104_times_45 :
    fl64 (5204159569405906 * 2 ^ (-54 : ℤ) * 45) = 7318349394477055 * 2 ^ (-49 : ℤ) := by
  have := fl64_eq_of_near (x := 5204159569405906 * 2 ^ (-54 : ℤ) * 45) 3 7318349394477055
    (by norm_num) (by norm_num [zpow_neg]) (by norm_num [zpow_neg]) (by norm_num [zpow_neg])
    (by norm_num [zpow_neg])
  simpa using this

theorem angular_idx_104_of_45 (ub : ℤ → ℕ) (t0 : ℤ) :
    (RadarModel.construct t0 45 1).angular_idx ub 104 = 12 := by
  unfold RadarModel.angular_idx
  rw [fmod_of_lt (by norm_num) (by norm_num)]
  simp only [RadarModel.construct]
  rw [fl64_104_div_360]
  have h45 : ((45 : ℕ) : ℚ) = 45 := by norm_num
  rw [h45, fl64_104_times_45]
  rw [castU32_of_nonneg_lt ub (by norm_num [zpow_neg]) (by norm_num [zpow_neg])]
  rw [Nat.floor_eq_iff (by norm_num [zpow_neg])]
  norm_num [zpow_neg]

theorem cell_index_eq (ub : ℤ → ℕ) (s : RadarModel) {deg : ℚ} (dist : ℚ)
    (hA : 1 ≤ s.m_angular_res) (hR : 1 ≤ s.m_radial_res) (hR2 : s.m_radial_res < 2 ^ 24)
    (hAR : s.m_angular_res * s.m_radial_res < 2 ^ 32)
    (hfix : fl32 deg = deg) (h0 : 0 ≤ deg) (h1 : deg < 360) :
    s.cell_index ub deg dist
      = ⌊fl64 (fl64 (deg / 360) * (s.m_angular_res : ℚ))⌋₊ * s.m_radial_res
        + min ⌊fl32 (min 1 (max 0 dist) * (s.m_radial_res : ℚ))⌋₊ (s.m_radial_res - 1) ∧
    s.cell_index ub deg dist < s.m_angular_res * s.m_radial_res := by
  have hA2 : s.m_angular_res < 2 ^ 32 := by
    calc s.m_angular_res = s.m_angular_res * 1 := (Nat.mul_one _).symm
      _ ≤ s.m_angular_res * s.m_radial_res := Nat.mul_le_mul_left _ hR
      _ < 2 ^ 32 := hAR
  obtain ⟨ha, halt⟩ := angular_idx_eq ub s hA hA2 hfix h0 h1
  have hr := radial_idx_eq ub s dist hR hR2
  have hrlt := radial_idx_lt ub s dist hR (by omega)
  have hbound : s.angular_idx ub deg * s.m_radial_res + s.radial_idx ub dist
      < s.m_angular_res * s.m_radial_res := by
    rw [ha]
    have : (⌊fl64 (fl64 (deg / 360) * (s.m_angular_res : ℚ))⌋₊ + 1) * s.m_radial_res
        ≤ s.m_angular_res * s.m_radial_res := Nat.mul_le_mul_right _ halt
    rw [Nat.add_mul, Nat.one_mul] at this
    omega
  unfold RadarModel.cell_index
  rw [Nat.mod_eq_of_lt (lt_trans hbound hAR)]
  exact ⟨by rw [ha, hr], hbound⟩

/-- C1 (amended): on a well-formed grid with `A, R ≥ 1`, `R < 2^24` and `A*R < 2^32`, for a
single-precision angle in `[0,360)` and a distance in `[0,1]`, `add_detection` at clock time
`t` writes `t` into exactly the cell `a*R + r`, where `a = ⌊fl64 (fl64 (angle/360) * A)⌋ < A`
and `r = min ⌊fl32 (distance*R)⌋ (R-1) < R` are the buckets as computed in floating point;
every other cell, the sweep angle and the resolutions are unchanged, and a snapshot taken at
the same clock time reports elapsed `0` for that cell. -/
theorem add_detection_sets_exactly_one_cell (ub : ℤ → ℕ) (s : RadarModel) (t : ℤ)
    (deg dist : ℚ) (hwf : s.WellFormed)
    (hA : 1 ≤ s.m_angular_res) (hR : 1 ≤ s.m_radial_res) (hR2 : s.m_radial_res < 2 ^ 24)
    (hAR : s.m_angular_res * s.m_radial_res < 2 ^ 32)
    (hfix : fl32 deg = deg) (h0 : 0 ≤ deg) (h1 : deg < 360) (hd0 : 0 ≤ dist) (hd1 : dist ≤ 1) :
    ∃ a r : ℕ,
      a = ⌊fl64 (fl64 (deg / 360) * (s.m_angular_res : ℚ))⌋₊ ∧
      r = min ⌊fl32 (dist * (s.m_radial_res : ℚ))⌋₊ (s.m_radial_res - 1) ∧
      a < s.m_angular_res ∧ r < s.m_radial_res ∧
      a * s.m_radial_res + r < s.m_cell_last_hit.length ∧
      (s.add_detection ub t deg dist).m_cell_last_hit[a * s.m_radial_res + r]? = some t ∧
      (∀ j, j ≠ a * s.m_radial_res + r →
        (s.add_detection ub t deg dist).m_cell_last_hit[j]? = s.m_cell_last_hit[j]?) ∧
      (s.add_detection ub t deg dist).m_cell_last_hit.length = s.m_cell_last_hit.length ∧
      (s.add_detection ub t deg dist).m_sweep_deg = s.m_sweep_deg ∧
      (s.add_detection ub t deg dist).m_angular_res = s.m_angular_res ∧
      (s.add_detection ub t deg dist).m_radial_res = s.m_radial_res ∧
      ((s.add_detection ub t deg dist).get_cell_hit_times t)[a * s.m_radial_res + r]? = some 0 := by
  have hA2 : s.m_angular_res < 2 ^ 32 := hwf.1
  obtain ⟨-, halt⟩ := angular_idx_eq ub s hA hA2 hfix h0 h1
  obtain ⟨hci, hcilt⟩ := cell_index_eq ub s dist hA hR hR2 hAR hfix h0 h1
  have hnd : min 1 (max 0 dist) = dist := by
    rw [max_eq_right hd0, min_eq_right hd1]
  rw [hnd] at hci
  have hlen : s.m_cell_last_hit.length = s.m_angular_res * s.m_radial_res := by
    rw [hwf.2.2, Nat.mul_comm, Nat.mod_eq_of_lt hAR]
  have hlt : s.cell_index ub deg dist < s.m_cell_last_hit.length := by
    rw [hlen]
    exact hcilt
  have hadd := add_detection_of_lt ub s t deg dist hlt
  rw [hci] at hadd hlt
  refine ⟨_, _, rfl, rfl, halt, ?_, hlt, ?_, ?_, ?_, ?_, ?_, ?_, ?_⟩
  · have : 0 < s.m_radial_res := hR
    omega
  · rw [hadd]
    simp [hlt]
  · intro j hj
    rw [hadd]
    simp only
    rw [List.getElem?_set_ne (Ne.symm hj)]
  · rw [hadd]
    simp
  · rw [hadd]
  · rw [hadd]
  · rw [hadd]
  · rw [hadd]
    simp [RadarModel.get_cell_hit_times, hlt, elapsed_self]

theorem wellFormed_construct (t0 : ℤ) (A R : ℕ) (hA : A < 2 ^ 32) (hR : R < 2 ^ 32) :
    (RadarModel.construct t0 A R).WellFormed := by
  refine ⟨hA, hR, ?_⟩
  simp [RadarModel.construct]

theorem add_detection_sets_exactly_one_cell_witness :
    (RadarModel.construct 0 30 4).WellFormed ∧ fl32 45 = 45 ∧
    ∃ a r : ℕ, a < 30 ∧ r < 4 ∧
      ((RadarModel.construct 0 30 4).add_detection (fun _ => 0) 5 45 (1 / 2)).m_cell_last_hit[a * 4 + r]?
        = some 5 := by
  have hwf := wellFormed_construct 0 30 4 (by norm_num) (by norm_num)
  have hfl : fl32 45 = 45 := by
    have := fl32_natCast 45 (by norm_num)
    simpa using this
  obtain ⟨a, r, -, -, ha, hr, -, h, -⟩ :=
    add_detection_sets_exactly_one_cell (fun _ => 0) (RadarModel.construct 0 30 4) 5 45 (1 / 2)
      hwf (by decide) (by decide) (by decide) (by decide) hfl (by norm_num) (by norm_num)
      (by norm_num) (by norm_num)
  exact ⟨hwf, hfl, a, r, ha, hr, h⟩

theorem add_detection_104_of_45 :
    (RadarModel.construct 0 45 1).add_detection (fun _ => 0) 5 104 0
      = { RadarModel.construct 0 45 1 with
          m_cell_last_hit := (RadarModel.construct 0 45 1).m_cell_last_hit.set 12 5 } := by
  have hidx : (RadarModel.construct 0 45 1).cell_index (fun _ => 0) 104 0 = 12 := by
    unfold RadarModel.cell_index
    rw [angular_idx_104_of_45, radial_idx_eq _ _ _ (by decide) (by decide)]
    simp [RadarModel.construct]
  have hlt : (RadarModel.construct 0 45 1).cell_index (fun _ => 0) 104 0
      < (RadarModel.construct 0 45 1).m_cell_last_hit.length := by
    rw [hidx]
    simp [RadarModel.construct]
  rw [add_detection_of_lt _ _ _ _ _ hlt, hidx]

/-- C1 (counterexample): on a 45 x 1 grid `add_detection(104, 0)` at time 5 does not stamp the
cell `⌊104/360*45⌋ = 13` of the real-arithmetic formula but cell 12, because the double product
rounds to `12.999999999999998`; and on a 65536 x 65536 grid, whose cell count wraps to zero,
no cell is stamped at all. -/
theorem add_detection_real_formula_fails :
    ((RadarModel.construct 0 45 1).add_detection (fun _ => 0) 5 104 0).m_cell_last_hit[
        ⌊(104 : ℚ) / 360 * 45⌋₊ * 1 + min ⌊(0 : ℚ) * 1⌋₊ (1 - 1)]? ≠ some 5 ∧
    ((RadarModel.construct 0 45 1).add_detection (fun _ => 0) 5 104 0).m_cell_last_hit[12]?
        = some 5 ∧
    ((RadarModel.construct 0 65536 65536).add_detection (fun _ => 0) 5 0 0).m_cell_last_hit[
        ⌊(0 : ℚ) / 360 * 65536⌋₊ * 65536 + min ⌊(0 : ℚ) * 65536⌋₊ (65536 - 1)]? ≠ some 5 := by
  refine ⟨?_, ?_, ?_⟩
  · rw [add_detection_104_of_45]
    have h13 : ⌊(104 : ℚ) / 360 * 45⌋₊ = 13 := by
      rw [Nat.floor_eq_iff (by norm_num)]
      norm_num
    rw [h13]
    simp [RadarModel.construct, List.getElem?_set, List.getElem?_replicate, hour]
  · rw [add_detection_104_of_45]
    simp [RadarModel.construct]
  · simp [RadarModel.add_detection, RadarModel.construct]

theorem roundPos_zero (p : ℕ) (emin : ℤ) : roundPos p emin 0 = 0 := by
  unfold roundPos
  simp [roundHalfEven]

theorem roundNE_neg (p : ℕ) (emin : ℤ) (x : ℚ) : roundNE p emin (-x) = - roundNE p emin x := by
  unfold roundNE
  rcases lt_trichotomy x 0 with h | h | h
  · rw [if_neg (by linarith), if_pos h]
    simp
  · subst h
    simp [roundPos_zero]
  · rw [if_pos (by linarith), if_neg (by linarith)]
    simp

/-- Signed dyadic values with at most 53 significant bits are fixed by `fl64`. -/
theorem fl64_dyadic (m : ℤ) (k : ℤ) (hm : m.natAbs < 2 ^ 53) (hk : -1074 ≤ k) :
    fl64 ((m : ℚ) * 2 ^ k) = (m : ℚ) * 2 ^ k := by
  unfold fl64
  obtain ⟨n, rfl | rfl⟩ := Int.eq_nat_or_neg m
  · have hn : n < 2 ^ 53 := by simpa using hm
    push_cast
    exact roundNE_dyadic 53 (-1022) n k hn (by norm_num; omega)
  · have hn : n < 2 ^ 53 := by simpa using hm
    push_cast
    rw [neg_mul, roundNE_neg]
    rw [roundNE_dyadic 53 (-1022) n k hn (by norm_num; omega)]

theorem truncQ_eq_zero {x : ℚ} (h0 : -1 < x) (h1 : x < 1) : truncQ x = 0 := by
  unfold truncQ
  split_ifs with h
  · rw [Int.floor_eq_iff]
    constructor <;> norm_num <;> linarith
  · rw [Int.ceil_eq_iff]
    push_neg at h
    constructor <;> norm_num <;> linarith

theorem angular_idx_neg10_of_30 (ub : ℤ → ℕ) (t0 : ℤ) :
    (RadarModel.construct t0 30 4).angular_idx ub (-10) = 0 := by
  have hf : fmod (-10) 360 = -10 := by
    unfold fmod
    rw [truncQ_eq_zero (by norm_num) (by norm_num)]
    norm_num
  have hq0 : fl64 (-10 / 360) ≤ 0 := by
    have := fl64_mono (show (-10 / 360 : ℚ) ≤ 0 by norm_num)
    rwa [fl64_zero] at this
  have hq1 : -(1 / 32) ≤ fl64 (-10 / 360) := by
    have := fl64_mono (show (((-1 : ℤ) : ℚ) * 2 ^ (-5 : ℤ)) ≤ (-10 / 360 : ℚ) by
      norm_num [zpow_neg])
    rw [fl64_dyadic (-1) (-5) (by norm_num) (by norm_num)] at this
    norm_num [zpow_neg] at this
    linarith
  have hv0 : fl64 (fl64 (-10 / 360) * 30) ≤ 0 := by
    have := fl64_mono (show fl64 (-10 / 360) * 30 ≤ 0 by linarith)
    rwa [fl64_zero] at this
  have hv1 : -(15 / 16) ≤ fl64 (fl64 (-10 / 360) * 30) := by
    have := fl64_mono (show (((-15 : ℤ) : ℚ) * 2 ^ (-4 : ℤ)) ≤ fl64 (-10 / 360) * 30 by
      norm_num [zpow_neg]
      linarith)
    rw [fl64_dyadic (-15) (-4) (by norm_num) (by norm_num)] at this
    norm_num [zpow_neg] at this
    linarith
  unfold RadarModel.angular_idx castU32
  rw [hf]
  simp only [RadarModel.construct]
  have h30 : ((30 : ℕ) : ℚ) = 30 := by norm_num
  rw [h30, truncQ_eq_zero (by linarith) (by linarith)]
  simp

theorem angular_idx_350_of_30 (ub : ℤ → ℕ) (t0 : ℤ) :
    (RadarModel.construct t0 30 4).angular_idx ub 350 = 29 := by
  have hfl : fl32 350 = 350 := by
    have := fl32_natCast 350 (by norm_num)
    simpa using this
  obtain ⟨ha, hlt⟩ := angular_idx_eq ub (RadarModel.construct t0 30 4) (by simp [RadarModel.construct])
    (by simp [RadarModel.construct])
    hfl (by norm_num) (by norm_num)
  rw [ha]
  simp only [RadarModel.construct] at hlt ⊢
  have h30 : ((30 : ℕ) : ℚ) = 30 := by norm_num
  rw [h30] at hlt ⊢
  have hq : (31 / 32 : ℚ) ≤ fl64 (350 / 360) := by
    have := fl64_mono (show (((31 : ℤ) : ℚ) * 2 ^ (-5 : ℤ)) ≤ (350 / 360 : ℚ) by
      norm_num [zpow_neg])
    rw [fl64_dyadic 31 (-5) (by norm_num) (by norm_num)] at this
    norm_num [zpow_neg] at this
    linarith
  have hv : (29 : ℚ) ≤ fl64 (fl64 (350 / 360) * 30) := by
    have := fl64_mono (show (((29 : ℕ) : ℚ)) ≤ fl64 (350 / 360) * 30 by
      norm_num
      linarith)
    rw [fl64_natCast 29 (by norm_num)] at this
    exact_mod_cast this
  have : 29 ≤ ⌊fl64 (fl64 (350 / 360) * 30)⌋₊ := Nat.le_floor (by exact_mod_cast hv)
  omega

theorem radial_idx_half_of_4 (ub : ℤ → ℕ) (t0 : ℤ) (A : ℕ) :
    (RadarModel.construct t0 A 4).radial_idx ub (1 / 2) = 2 := by
  rw [radial_idx_eq _ _ _ (by simp [RadarModel.construct]) (by simp [RadarModel.construct])]
  simp only [RadarModel.construct]
  have h : min 1 (max 0 (1 / 2 : ℚ)) * ((4 : ℕ) : ℚ) = ((2 : ℕ) : ℚ) := by
    rw [max_eq_right (by norm_num), min_eq_right (by norm_num)]
    norm_num
  rw [h, fl32_natCast 2 (by norm_num)]
  simp

theorem cell_index_of_30_4 (ub : ℤ → ℕ) (t0 : ℤ) (deg : ℚ) (a : ℕ)
    (ha : (RadarModel.construct t0 30 4).angular_idx ub deg = a) (ha2 : a < 30) :
    (RadarModel.construct t0 30 4).cell_index ub deg (1 / 2) = a * 4 + 2 := by
  unfold RadarModel.cell_index
  rw [ha, radial_idx_half_of_4]
  simp only [RadarModel.construct]
  omega

/-- C2 (code at the failing input): on the default 30 x 4 grid `add_detection(-10, 0.5)` stamps
cell `0*4 + 2 = 2`, whereas `add_detection(350, 0.5)` stamps cell `29*4 + 2 = 118`: `fmod`
keeps the sign of its first argument, so a negative angle is not mapped into `[0,360)`. -/
theorem add_detection_negative_angle_not_normalized (ub : ℤ → ℕ) :
    (RadarModel.construct 0 30 4).add_detection ub 5 (-10) (1 / 2)
      = { RadarModel.construct 0 30 4 with
          m_cell_last_hit := (RadarModel.construct 0 30 4).m_cell_last_hit.set 2 5 } ∧
    (RadarModel.construct 0 30 4).add_detection ub 5 350 (1 / 2)
      = { RadarModel.construct 0 30 4 with
          m_cell_last_hit := (RadarModel.construct 0 30 4).m_cell_last_hit.set 118 5 } ∧
    (RadarModel.construct 0 30 4).add_detection ub 5 (-10) (1 / 2)
      ≠ (RadarModel.construct 0 30 4).add_detection ub 5 350 (1 / 2) := by
  have h1 := cell_index_of_30_4 ub 0 (-10) 0 (angular_idx_neg10_of_30 ub 0) (by norm_num)
  have h2 := cell_index_of_30_4 ub 0 350 29 (angular_idx_350_of_30 ub 0) (by norm_num)
  have hlen : (RadarModel.construct 0 30 4).m_cell_last_hit.length = 120 := by
    simp [RadarModel.construct]
  have e1 := add_detection_of_lt ub (RadarModel.construct 0 30 4) 5 (-10) (1 / 2)
    (by rw [h1, hlen]; norm_num)
  have e2 := add_detection_of_lt ub (RadarModel.construct 0 30 4) 5 350 (1 / 2)
    (by rw [h2, hlen]; norm_num)
  rw [h1] at e1
  rw [h2] at e2
  refine ⟨e1, e2, ?_⟩
  rw [e1, e2]
  intro h
  have h3 := congrArg (fun s : RadarModel => s.m_cell_last_hit[2]?) h
  simp [RadarModel.construct, List.getElem?_set, List.getElem?_replicate, hour] at h3

theorem truncQ_eq_neg_one {x : ℚ} (h0 : -2 < x) (h1 : x ≤ -1) : truncQ x = -1 := by
  unfold truncQ
  rw [if_neg (by linarith)]
  rw [Int.ceil_eq_iff]
  constructor <;> norm_num <;> linarith

theorem truncQ_neg20_of_30 : truncQ (fl64 (fl64 (fmod (-20) 360 / 360) * 30)) = -1 := by
  have hf : fmod (-20) 360 = -20 := by
    unfold fmod
    rw [truncQ_eq_zero (by norm_num) (by norm_num)]
    norm_num
  rw [hf]
  have hq0 : fl64 (-20 / 360) ≤ -(14 / 256) := by
    have := fl64_mono (show (-20 / 360 : ℚ) ≤ (((-14 : ℤ) : ℚ) * 2 ^ (-8 : ℤ)) by
      norm_num [zpow_neg])
    rw [fl64_dyadic (-14) (-8) (by norm_num) (by norm_num)] at this
    norm_num [zpow_neg] at this
    linarith
  have hq1 : -(15 / 256) ≤ fl64 (-20 / 360) := by
    have := fl64_mono (show (((-15 : ℤ) : ℚ) * 2 ^ (-8 : ℤ)) ≤ (-20 / 360 : ℚ) by
      norm_num [zpow_neg])
    rw [fl64_dyadic (-15) (-8) (by norm_num) (by norm_num)] at this
    norm_num [zpow_neg] at this
    linarith
  have hv0 : fl64 (fl64 (-20 / 360) * 30) ≤ -(420 / 256) := by
    have := fl64_mono (show fl64 (-20 / 360) * 30 ≤ (((-420 : ℤ) : ℚ) * 2 ^ (-8 : ℤ)) by
      norm_num [zpow_neg]
      linarith)
    rw [fl64_dyadic (-420) (-8) (by norm_num) (by norm_num)] at this
    norm_num [zpow_neg] at this
    linarith
  have hv1 : -(450 / 256) ≤ fl64 (fl64 (-20 / 360) * 30) := by
    have := fl64_mono (show (((-450 : ℤ) : ℚ) * 2 ^ (-8 : ℤ)) ≤ fl64 (-20 / 360) * 30 by
      norm_num [zpow_neg]
      linarith)
    rw [fl64_dyadic (-450) (-8) (by norm_num) (by norm_num)] at this
    norm_num [zpow_neg] at this
    linarith
  exact truncQ_eq_neg_one (by linarith) (by linarith)

/-- C5 (code at the failing input): on the default 30 x 4 grid `add_detection(-20, d)` truncates
`-1.66…` to `-1`, which no `uint32_t` holds; the angular index is then whatever the conversion
yields (`4294967295` when the low 32 bits of the two's-complement value are kept) and is not
clamped below `angular_resolution = 30`; only the flattened index is range-checked. -/
theorem angular_idx_negative_angle_unclamped :
    (∀ ub : ℤ → ℕ, (RadarModel.construct 0 30 4).angular_idx ub (-20) = ub (-1) % 2 ^ 32) ∧
    (RadarModel.construct 0 30 4).angular_idx (fun t => (t % 2 ^ 32).toNat) (-20) = 4294967295 ∧
    ¬ (RadarModel.construct 0 30 4).angular_idx (fun t => (t % 2 ^ 32).toNat) (-20)
        < (RadarModel.construct 0 30 4).m_angular_res := by
  have h : ∀ ub : ℤ → ℕ,
      (RadarModel.construct 0 30 4).angular_idx ub (-20) = ub (-1) % 2 ^ 32 := by
    intro ub
    unfold RadarModel.angular_idx castU32
    simp only [RadarModel.construct]
    have h30 : ((30 : ℕ) : ℚ) = 30 := by norm_num
    rw [h30, truncQ_neg20_of_30]
    simp
  refine ⟨h, ?_, ?_⟩
  · rw [h]
    decide
  · rw [h]
    decide

/-- C4 (amended): on a well-formed grid with `A, R ≥ 1`, `R < 2^24` and `A*R < 2^32`, for a
single-precision angle in `[0,360)`, `add_detection` writes ring
`min ⌊fl32 (clamp(d,0,1) * R)⌋ (R-1)` of the sector `a = ⌊fl64 (fl64 (angle/360) * A)⌋ < A`;
that ring is `R-1` for every `d ≥ 1` and `0` for every `d ≤ 0`. -/
theorem add_detection_radial_clamp (ub : ℤ → ℕ) (s : RadarModel) (t : ℤ) (deg dist : ℚ)
    (hwf : s.WellFormed)
    (hA : 1 ≤ s.m_angular_res) (hR : 1 ≤ s.m_radial_res) (hR2 : s.m_radial_res < 2 ^ 24)
    (hAR : s.m_angular_res * s.m_radial_res < 2 ^ 32)
    (hfix : fl32 deg = deg) (h0 : 0 ≤ deg) (h1 : deg < 360) :
    ∃ a r : ℕ,
      a = ⌊fl64 (fl64 (deg / 360) * (s.m_angular_res : ℚ))⌋₊ ∧
      r = min ⌊fl32 (min 1 (max 0 dist) * (s.m_radial_res : ℚ))⌋₊ (s.m_radial_res - 1) ∧
      a < s.m_angular_res ∧ r < s.m_radial_res ∧
      a * s.m_radial_res + r < s.m_cell_last_hit.length ∧
      (s.add_detection ub t deg dist).m_cell_last_hit
        = s.m_cell_last_hit.set (a * s.m_radial_res + r) t ∧
      (1 ≤ dist → r = s.m_radial_res - 1) ∧ (dist ≤ 0 → r = 0) := by
  obtain ⟨-, halt⟩ := angular_idx_eq ub s hA hwf.1 hfix h0 h1
  obtain ⟨hci, hcilt⟩ := cell_index_eq ub s dist hA hR hR2 hAR hfix h0 h1
  have hlen : s.m_cell_last_hit.length = s.m_angular_res * s.m_radial_res := by
    rw [hwf.2.2, Nat.mul_comm, Nat.mod_eq_of_lt hAR]
  have hlt : s.cell_index ub deg dist < s.m_cell_last_hit.length := by
    rw [hlen]
    exact hcilt
  have hadd := add_detection_of_lt ub s t deg dist hlt
  rw [hci] at hadd hlt
  refine ⟨_, _, rfl, rfl, halt, ?_, hlt, ?_, ?_, ?_⟩
  · have : 0 < s.m_radial_res := hR
    omega
  · rw [hadd]
  · intro hd
    have hnd : min 1 (max 0 dist) = 1 := by
      rw [max_eq_right (by linarith), min_eq_left hd]
    rw [hnd, one_mul, fl32_natCast _ hR2, Nat.floor_natCast]
    omega
  · intro hd
    have hnd : min 1 (max 0 dist) = 0 := by
      rw [max_eq_left hd, min_eq_right (by norm_num)]
    rw [hnd, zero_mul, fl32_zero]
    simp

theorem add_detection_radial_clamp_witness :
    (RadarModel.construct 0 30 4).WellFormed ∧ fl32 45 = 45 ∧
    ∃ a : ℕ, a < 30 ∧
      ((RadarModel.construct 0 30 4).add_detection (fun _ => 0) 5 45 (3 / 2)).m_cell_last_hit
        = (RadarModel.construct 0 30 4).m_cell_last_hit.set (a * 4 + 3) 5 := by
  have hwf := wellFormed_construct 0 30 4 (by norm_num) (by norm_num)
  have hfl : fl32 45 = 45 := by
    have := fl32_natCast 45 (by norm_num)
    simpa using this
  obtain ⟨a, r, -, -, ha, -, -, h, hr, -⟩ :=
    add_detection_radial_clamp (fun _ => 0) (RadarModel.construct 0 30 4) 5 45 (3 / 2)
      hwf (by decide) (by decide) (by decide) (by decide) hfl (by norm_num) (by norm_num)
  have hr3 : r = 3 := hr (by norm_num)
  rw [hr3] at h
  exact ⟨hwf, hfl, a, ha, h⟩

theorem fl32_ring_product : fl32 (15252014 / 16777216 * 11) = 10 := by
  have := fl32_eq_of_near (x := 15252014 / 16777216 * 11) 3 10485760 (by norm_num)
    (by norm_num [zpow_neg]) (by norm_num [zpow_neg]) (by norm_num [zpow_neg])
    (by norm_num [zpow_neg])
  rw [this]
  norm_num [zpow_neg]

/-- C4 (counterexample): with `R = 11` the single-precision distance `15252014 * 2^-24`
(about 0.9090909) is put in ring 10 although `⌊d * 11⌋ = 9`, because the product rounds up to
`10.0f`; and on a 65536 x 65536 grid, whose cell count wraps to zero, `add_detection(0, 1)`
writes no cell. -/
theorem add_detection_radial_formula_fails :
    fl32 (15252014 / 16777216) = 15252014 / 16777216 ∧
    (RadarModel.construct 0 1 11).radial_idx (fun _ => 0) (15252014 / 16777216) = 10 ∧
    min ⌊min 1 (max 0 (15252014 / 16777216 : ℚ)) * 11⌋₊ (11 - 1) = 9 ∧
    (RadarModel.construct 0 65536 65536).add_detection (fun _ => 0) 5 0 1
      = RadarModel.construct 0 65536 65536 ∧
    (RadarModel.construct 0 65536 65536).m_cell_last_hit = [] := by
  refine ⟨?_, ?_, ?_, ?_, ?_⟩
  · have := roundNE_dyadic 24 (-126) 15252014 (-24) (by norm_num) (by norm_num)
    unfold fl32
    norm_num [zpow_neg] at this ⊢
    exact this
  · rw [radial_idx_eq _ _ _ (by simp [RadarModel.construct]) (by simp [RadarModel.construct])]
    simp only [RadarModel.construct]
    have h11 : ((11 : ℕ) : ℚ) = 11 := by norm_num
    have hnd : min 1 (max 0 (15252014 / 16777216 : ℚ)) = 15252014 / 16777216 := by
      rw [max_eq_right (by norm_num), min_eq_right (by norm_num)]
    rw [h11, hnd, fl32_ring_product]
    simp
  · have hnd : min 1 (max 0 (15252014 / 16777216 : ℚ)) = 15252014 / 16777216 := by
      rw [max_eq_right (by norm_num), min_eq_right (by norm_num)]
    rw [hnd]
    have : ⌊(15252014 / 16777216 : ℚ) * 11⌋₊ = 9 := by
      rw [Nat.floor_eq_iff (by norm_num)]
      norm_num
    rw [this]
    decide
  · simp [RadarModel.add_detection, RadarModel.construct]
  · simp [RadarModel.construct]

/-- C6 (amended): the snapshot has one entry per stored cell, which for a well-formed model
with `A*R < 2^32` is exactly `A*R` entries, and the entry at position `a*R + r` (`a < A`,
`r < R`) is the elapsed time of the timestamp stored at that position, counted in whole
milliseconds and divided by 1000 in single precision. The snapshot is a pure function of the
state, which it does not change. -/
theorem get_cell_hit_times_row_major (s : RadarModel) (now : ℤ) (hwf : s.WellFormed)
    (hAR : s.m_angular_res * s.m_radial_res < 2 ^ 32) :
    (s.get_cell_hit_times now).length = s.m_angular_res * s.m_radial_res ∧
    ∀ a r : ℕ, a < s.m_angular_res → r < s.m_radial_res →
      ∃ time_point : ℤ, s.m_cell_last_hit[a * s.m_radial_res + r]? = some time_point ∧
        (s.get_cell_hit_times now)[a * s.m_radial_res + r]?
          = some (RadarModel.elapsed now time_point) := by
  have hlen : s.m_cell_last_hit.length = s.m_angular_res * s.m_radial_res := by
    rw [hwf.2.2, Nat.mul_comm, Nat.mod_eq_of_lt hAR]
  constructor
  · simp [RadarModel.get_cell_hit_times, hlen]
  · intro a r ha hr
    have hidx : a * s.m_radial_res + r < s.m_cell_last_hit.length := by
      rw [hlen]
      have : (a + 1) * s.m_radial_res ≤ s.m_angular_res * s.m_radial_res :=
        Nat.mul_le_mul_right _ ha
      rw [Nat.add_mul, Nat.one_mul] at this
      omega
    refine ⟨s.m_cell_last_hit[a * s.m_radial_res + r], ?_, ?_⟩
    · exact List.getElem?_eq_getElem hidx
    · simp [RadarModel.get_cell_hit_times, List.getElem?_eq_getElem hidx]

theorem get_cell_hit_times_row_major_witness :
    (RadarModel.construct 0 30 4).WellFormed ∧
    ((RadarModel.construct 0 30 4).get_cell_hit_times 7).length = 30 * 4 :=
  ⟨wellFormed_construct 0 30 4 (by norm_num) (by norm_num),
    (get_cell_hit_times_row_major (RadarModel.construct 0 30 4) 7
      (wellFormed_construct 0 30 4 (by norm_num) (by norm_num)) (by decide)).1⟩

/-- C6 (counterexample): a model constructed with dimensions 65536 x 65536 stores
`65536 * 65536 mod 2^32 = 0` cells, so its snapshot is empty and not of length `A*R`. -/
theorem get_cell_hit_times_length_wraps :
    ((RadarModel.construct 0 65536 65536).get_cell_hit_times 0).length ≠ 65536 * 65536 := by
  simp [RadarModel.get_cell_hit_times, RadarModel.construct]

/-! ## Properties of the detection parser -/

theorem cell_index_eq_flat_index (ub : ℤ → ℕ) (s : RadarModel) (deg dist : ℚ) :
    s.cell_index ub deg dist
      = flat_index s.m_radial_res (s.angular_idx ub deg) (s.radial_idx ub dist) := rfl

/-- C17: for every state (any resolutions, zero included), angle and distance, `add_detection`
either leaves the model as it is or overwrites the one cell at the computed 32-bit
`cell_index`, which then lies below the number of cells; when `cell_index` is not below the
number of cells the call changes nothing; the number of cells, the resolutions and the sweep
angle are always preserved. -/
theorem add_detection_overwrites_one_or_nothing (ub : ℤ → ℕ) (s : RadarModel) (now : ℤ)
    (deg dist : ℚ) :
    (s.add_detection ub now deg dist = s ∨
      (s.cell_index ub deg dist < s.m_cell_last_hit.length ∧
        s.add_detection ub now deg dist
          = { s with m_cell_last_hit := s.m_cell_last_hit.set (s.cell_index ub deg dist) now })) ∧
    (¬ s.cell_index ub deg dist < s.m_cell_last_hit.length →
      s.add_detection ub now deg dist = s) ∧
    s.cell_index ub deg dist
      = flat_index s.m_radial_res (s.angular_idx ub deg) (s.radial_idx ub dist) ∧
    s.cell_index ub deg dist < 2 ^ 32 ∧
    (s.add_detection ub now deg dist).m_cell_last_hit.length = s.m_cell_last_hit.length ∧
    (s.add_detection ub now deg dist).m_angular_res = s.m_angular_res ∧
    (s.add_detection ub now deg dist).m_radial_res = s.m_radial_res ∧
    (s.add_detection ub now deg dist).m_sweep_deg = s.m_sweep_deg := by
  have hlt32 : s.cell_index ub deg dist < 2 ^ 32 := by
    unfold RadarModel.cell_index
    exact Nat.mod_lt _ (by norm_num)
  by_cases h : s.cell_index ub deg dist < s.m_cell_last_hit.length
  · have hadd := add_detection_of_lt ub s now deg dist h
    refine ⟨Or.inr ⟨h, hadd⟩, fun hn => absurd h hn, rfl, hlt32, ?_, ?_, ?_, ?_⟩
    · rw [hadd]
      simp
    · rw [hadd]
    · rw [hadd]
    · rw [hadd]
  · have hadd : s.add_detection ub now deg dist = s := by
      unfold RadarModel.add_detection
      rw [if_neg h]
    refine ⟨Or.inl hadd, fun _ => hadd, rfl, hlt32, ?_, ?_, ?_, ?_⟩ <;> rw [hadd]

theorem add_detection_overwrites_one_or_nothing_witness :
    ¬ (RadarModel.construct 0 30 0).cell_index (fun _ => 0) 45 (1 / 2)
        < (RadarModel.construct 0 30 0).m_cell_last_hit.length ∧
    (RadarModel.construct 0 30 0).add_detection (fun _ => 0) 5 45 (1 / 2)
      = RadarModel.construct 0 30 0 := by
  have h : ¬ (RadarModel.construct 0 30 0).cell_index (fun _ => 0) 45 (1 / 2)
      < (RadarModel.construct 0 30 0).m_cell_last_hit.length := by
    simp [RadarModel.construct]
  exact ⟨h, (add_detection_overwrites_one_or_nothing (fun _ => 0) (RadarModel.construct 0 30 0)
    5 45 (1 / 2)).2.1 h⟩

theorem flat_index_of_lt {A R a r : ℕ} (h : A * R < 2 ^ 32) (ha : a < A) (hr : r < R) :
    flat_index R a r = a * R + r ∧ a * R + r < A * R := by
  have hbound : a * R + r < A * R := by
    have : (a + 1) * R ≤ A * R := Nat.mul_le_mul_right _ ha
    rw [Nat.add_mul, Nat.one_mul] at this
    omega
  unfold flat_index
  rw [Nat.mod_eq_of_lt (lt_trans hbound h)]
  exact ⟨rfl, hbound⟩

/-- C18: the constructor allocates `(A*R) mod 2^32` cells; when `A*R < 2^32` that is `A*R`,
and on the buckets `a < A`, `r < R` the flattening `a*R + r` in 32-bit arithmetic does not
wrap, stays below the number of allocated cells and is injective. -/
theorem flat_index_injective_below_bound (t0 : ℤ) (A R : ℕ) :
    (RadarModel.construct t0 A R).m_cell_last_hit.length = (A * R) % 2 ^ 32 ∧
    (A * R < 2 ^ 32 →
      (RadarModel.construct t0 A R).m_cell_last_hit.length = A * R ∧
      (∀ a r, a < A → r < R →
        flat_index R a r = a * R + r ∧
        flat_index R a r < (RadarModel.construct t0 A R).m_cell_last_hit.length) ∧
      (∀ a r a' r', a < A → r < R → a' < A → r' < R →
        flat_index R a r = flat_index R a' r' → a = a' ∧ r = r')) := by
  have hlen : (RadarModel.construct t0 A R).m_cell_last_hit.length = (A * R) % 2 ^ 32 := by
    simp [RadarModel.construct, Nat.mul_comm]
  refine ⟨hlen, fun h => ⟨?_, ?_, ?_⟩⟩
  · rw [hlen, Nat.mod_eq_of_lt h]
  · intro a r ha hr
    obtain ⟨h1, h2⟩ := flat_index_of_lt h ha hr
    rw [hlen, Nat.mod_eq_of_lt h, h1]
    exact ⟨rfl, h2⟩
  · intro a r a' r' ha hr ha' hr' heq
    rw [(flat_index_of_lt h ha hr).1, (flat_index_of_lt h ha' hr').1] at heq
    have hRpos : 0 < R := by omega
    have e1 : (a * R + r) / R = a := by
      rw [Nat.add_comm, Nat.add_mul_div_right _ _ hRpos, Nat.div_eq_of_lt hr, Nat.zero_add]
    have e2 : (a' * R + r') / R = a' := by
      rw [Nat.add_comm, Nat.add_mul_div_right _ _ hRpos, Nat.div_eq_of_lt hr', Nat.zero_add]
    have haa : a = a' := by
      rw [← e1, ← e2, heq]
    subst haa
    exact ⟨rfl, by omega⟩

theorem flat_index_injective_below_bound_witness :
    30 * 4 < 2 ^ 32 ∧ (RadarModel.construct 0 30 4).m_cell_last_hit.length = 30 * 4 ∧
    (∀ a r a' r', a < 30 → r < 4 → a' < 30 → r' < 4 →
      flat_index 4 a r = flat_index 4 a' r' → a = a' ∧ r = r') :=
  ⟨by norm_num, ((flat_index_injective_below_bound 0 30 4).2 (by norm_num)).1,
    ((flat_index_injective_below_bound 0 30 4).2 (by norm_num)).2.2⟩

/-! ## Properties of the command relay -/

theorem htons_command_port : htons RADAR_COMMAND_PORT = 8889 := by decide

theorem send_of_open (u : UdpClient) (address message : List Char) (port : ℤ)
    (hfd : 0 ≤ u.m_socket_fd) :
    u.send address port message
      = [{ sin_addr := (inet_pton4 (c_str address)).getD 0, sin_port := htons port,
           message := message }] := by
  unfold UdpClient.send
  rw [if_neg (by omega)]

theorem send_of_closed (u : UdpClient) (address message : List Char) (port : ℤ)
    (hfd : u.m_socket_fd < 0) : u.send address port message = [] := by
  unfold UdpClient.send
  rw [if_pos hfd]

theorem ip_nonempty_of_valid {ip : List Char} {addr : ℕ}
    (h : inet_pton4 (c_str ip) = some addr) : ip.isEmpty = false := by
  cases ip with
  | nil =>
    have hnone : inet_pton4 (c_str []) = none := by decide
    rw [hnone] at h
    exact absurd h (by simp)
  | cons c r => rfl

theorem send_command_of_ready (c : Controller) (u : UdpClient) (addr : ℕ)
    (command : List Char) (hu : c.m_udp_client = some u) (hfd : 0 ≤ u.m_socket_fd)
    (hip : inet_pton4 (c_str c.m_radar_ip) = some addr) :
    c.send_command_to_radar command
      = [{ sin_addr := addr, sin_port := 8889, message := command }] := by
  unfold Controller.send_command_to_radar
  rw [hu, ip_nonempty_of_valid hip]
  simp only [Option.isNone_some, Bool.or_self, Bool.false_eq_true, if_false]
  rw [send_of_open u _ _ _ hfd, hip, htons_command_port]
  rfl

/-- C11: with a valid IPv4 sensor address configured and the UDP socket open, a serial line
that starts with `IR:` causes exactly one `sendto`, to that address on port 8889, whose
payload is the line without its first three bytes (`IR:SCAN_LEFT` sends `SCAN_LEFT`); a
line that does not start with `IR:` (such as `hello`) causes none. -/
theorem handle_serial_data_relays_command (c : Controller) (u : UdpClient) (addr : ℕ)
    (hu : c.m_udp_client = some u) (hfd : 0 ≤ u.m_socket_fd)
    (hip : inet_pton4 (c_str c.m_radar_ip) = some addr) :
    (∀ line : List Char, line.take 3 = ['I', 'R', ':'] →
      c.handle_serial_data line
        = [{ sin_addr := addr, sin_port := 8889, message := line.drop 3 }]) ∧
    (∀ line : List Char, line.take 3 ≠ ['I', 'R', ':'] → c.handle_serial_data line = []) ∧
    c.handle_serial_data "IR:SCAN_LEFT".toList
      = [{ sin_addr := addr, sin_port := 8889, message := "SCAN_LEFT".toList }] ∧
    c.handle_serial_data "hello".toList = [] := by
  have h1 : ∀ line : List Char, line.take 3 = ['I', 'R', ':'] →
      c.handle_serial_data line
        = [{ sin_addr := addr, sin_port := 8889, message := line.drop 3 }] := by
    intro line hline
    unfold Controller.handle_serial_data
    rw [if_pos hline]
    exact send_command_of_ready c u addr _ hu hfd hip
  have h2 : ∀ line : List Char, line.take 3 ≠ ['I', 'R', ':'] →
      c.handle_serial_data line = [] := by
    intro line hline
    unfold Controller.handle_serial_data
    rw [if_neg hline]
  exact ⟨h1, h2, h1 _ (by decide), h2 _ (by decide)⟩

theorem handle_serial_data_relays_command_witness :
    inet_pton4 (c_str "192.168.1.20".toList) = some 3232235796 ∧
    Controller.handle_serial_data
        { m_udp_client := some { m_socket_fd := 3, m_is_listening := true },
          m_radar_ip := "192.168.1.20".toList } "IR:STOP".toList
      = [{ sin_addr := 3232235796, sin_port := 8889, message := "STOP".toList }] :=
  ⟨by decide,
    (handle_serial_data_relays_command
      { m_udp_client := some { m_socket_fd := 3, m_is_listening := true },
        m_radar_ip := "192.168.1.20".toList }
      { m_socket_fd := 3, m_is_listening := true } 3232235796 rfl (by decide) (by decide)).1
      "IR:STOP".toList (by decide)⟩

/-- C12: `send_command_to_radar` causes no `sendto` when the stored address is empty, when
there is no UDP client, or when the client's socket is not open; otherwise, with a valid IPv4
address stored by the latest `set_radar_unit_ip`, it causes exactly one `sendto` with payload
`command` to that address on port 8889, which is not the listening port 8888. -/
theorem send_command_to_radar_guarded (c : Controller) (command : List Char) :
    (c.m_radar_ip = [] → c.send_command_to_radar command = []) ∧
    (c.m_udp_client = none → c.send_command_to_radar command = []) ∧
    (∀ u : UdpClient, c.m_udp_client = some u → u.m_socket_fd < 0 →
      c.send_command_to_radar command = []) ∧
    (∀ (u : UdpClient) (earlier ip : List Char) (addr : ℕ),
      c.m_udp_client = some u → 0 ≤ u.m_socket_fd → inet_pton4 (c_str ip) = some addr →
      ((c.set_radar_unit_ip earlier).set_radar_unit_ip ip).send_command_to_radar command
        = [{ sin_addr := addr, sin_port := 8889, message := command }]) ∧
    RADAR_COMMAND_PORT = 8889 ∧ RADAR_LISTENING_PORT = 8888 ∧
    RADAR_COMMAND_PORT ≠ RADAR_LISTENING_PORT := by
  refine ⟨?_, ?_, ?_, ?_, rfl, rfl, by decide⟩
  · intro h
    unfold Controller.send_command_to_radar
    rw [h]
    rfl
  · intro h
    unfold Controller.send_command_to_radar
    rw [h]
    simp
  · intro u hu hfd
    unfold Controller.send_command_to_radar
    rw [hu]
    split_ifs
    · rfl
    · exact send_of_closed u _ _ _ hfd
  · intro u earlier ip addr hu hfd hip
    exact send_command_of_ready ((c.set_radar_unit_ip earlier).set_radar_unit_ip ip) u addr
      command hu hfd hip

theorem send_command_to_radar_guarded_witness :
    inet_pton4 (c_str "10.0.0.7".toList) = some 167772167 ∧
    Controller.send_command_to_radar
        { m_udp_client := some { m_socket_fd := 3, m_is_listening := true }, m_radar_ip := [] }
        "STOP".toList = [] ∧
    Controller.send_command_to_radar
        (Controller.set_radar_unit_ip
          (Controller.set_radar_unit_ip
            { m_udp_client := some { m_socket_fd := 3, m_is_listening := true },
              m_radar_ip := [] } "10.0.0.1".toList) "10.0.0.7".toList)
        "STOP".toList
      = [{ sin_addr := 167772167, sin_port := 8889, message := "STOP".toList }] :=
  ⟨by decide,
    (send_command_to_radar_guarded
      { m_udp_client := some { m_socket_fd := 3, m_is_listening := true }, m_radar_ip := [] }
      "STOP".toList).1 rfl,
    (send_command_to_radar_guarded
      { m_udp_client := some { m_socket_fd := 3, m_is_listening := true }, m_radar_ip := [] }
      "STOP".toList).2.2.2.1 { m_socket_fd := 3, m_is_listening := true } "10.0.0.1".toList
      "10.0.0.7".toList 167772167 rfl (by decide) (by decide)⟩

/-- C13 (code at the failing input): with the socket open, `send("not-an-ip", 8889,
"SCAN_LEFT")` still calls `sendto` once: `inet_pton` rejects the text, its result is not
looked at, and the datagram goes out with the zero address left by the initialisation of
`dest_addr`. -/
theorem send_malformed_address_still_sends :
    inet_pton4 (c_str "not-an-ip".toList) = none ∧
    UdpClient.send { m_socket_fd := 3, m_is_listening := true } "not-an-ip".toList 8889
        "SCAN_LEFT".toList
      = [{ sin_addr := 0, sin_port := 8889, message := "SCAN_LEFT".toList }] := by
  refine ⟨by decide, ?_⟩
  rw [send_of_open _ _ _ _ (by decide)]
  have h : inet_pton4 (c_str "not-an-ip".toList) = none := by decide
  rw [h]
  rfl

/-! ## Properties of the serial listener -/

theorem scan_lines_append (cur a b : List Char) :
    scan_lines cur (a ++ b)
      = ((scan_lines cur a).1 ++ (scan_lines (scan_lines cur a).2 b).1,
          (scan_lines (scan_lines cur a).2 b).2) := by
  induction a generalizing cur with
  | nil => simp [scan_lines]
  | cons c s ih =>
    by_cases hc : c = '\n'
    · simp [scan_lines, hc, ih]
    · simp [scan_lines, hc, ih]

theorem scan_lines_of_no_newline (cur s : List Char) (h : '\n' ∉ s) :
    scan_lines cur s = ([], cur ++ s) := by
  induction s generalizing cur with
  | nil => simp [scan_lines]
  | cons c s ih =>
    have hc : c ≠ '\n' := fun e => h (by simp [e])
    have hs : '\n' ∉ s := fun e => h (by simp [e])
    simp [scan_lines, hc, ih _ hs]

theorem scan_lines_of_newline (cur l rest : List Char) (h : '\n' ∉ l) :
    scan_lines cur (l ++ '\n' :: rest)
      = ((cur ++ l) :: (scan_lines [] rest).1, (scan_lines [] rest).2) := by
  rw [scan_lines_append, scan_lines_of_no_newline cur l h]
  simp [scan_lines]

theorem find_newline_cases (s : List Char) :
    (find_newline s = none ∧ '\n' ∉ s) ∨
    (∃ l rest, s = l ++ '\n' :: rest ∧ '\n' ∉ l ∧ find_newline s = some l.length) := by
  induction s with
  | nil =>
    left
    exact ⟨by decide, by simp⟩
  | cons c s ih =>
    by_cases hc : c = '\n'
    · right
      refine ⟨[], s, by simp [hc], by simp, ?_⟩
      subst hc
      simp [find_newline, List.indexOf_cons]
    · rcases ih with ⟨hnone, hmem⟩ | ⟨l, rest, hs, hl, hsome⟩
      · left
        refine ⟨?_, by simp [hmem, Ne.symm hc]⟩
        unfold find_newline at hnone ⊢
        simp only [List.indexOf_cons, List.length_cons]
        have hbeq : (c == '\n') = false := by simpa using hc
        simp only [hbeq, cond_false]
        split at hnone
        · simp at hnone
        · rename_i hge
          rw [if_neg (by omega)]
      · right
        refine ⟨c :: l, rest, by simp [hs], by simp [hl, Ne.symm hc], ?_⟩
        unfold find_newline at hsome ⊢
        simp only [List.indexOf_cons, List.length_cons]
        have hbeq : (c == '\n') = false := by simpa using hc
        simp only [hbeq, cond_false]
        split at hsome
        · rename_i hlt
          simp only [Option.some.injEq] at hsome
          rw [if_pos (by omega), hsome]
        · simp at hsome

theorem process_lines_of_none {s : List Char} (h : find_newline s = none) :
    process_lines s = ([], s) := by
  rw [process_lines]
  split
  · rfl
  · rename_i pos hpos
    rw [h] at hpos
    simp at hpos

theorem process_lines_of_some {s : List Char} {pos : ℕ} (h : find_newline s = some pos) :
    process_lines s
      = if !(trim_cr (s.take pos)).isEmpty then
          (trim_cr (s.take pos) :: (process_lines (s.drop (pos + 1))).1,
            (process_lines (s.drop (pos + 1))).2)
        else process_lines (s.drop (pos + 1)) := by
  rw [process_lines]
  split
  · rename_i hnone
    rw [h] at hnone
    simp at hnone
  · rename_i pos' hpos
    rw [h] at hpos
    simp only [Option.some.injEq] at hpos
    subst hpos
    rfl

theorem deliver_cons (l : List Char) (ls : List (List Char)) :
    deliver (l :: ls)
      = if !(trim_cr l).isEmpty then trim_cr l :: deliver ls else deliver ls := by
  unfold deliver
  by_cases h : (trim_cr l).isEmpty = true
  · simp [List.filter_cons, h]
  · simp [List.filter_cons, h]

theorem deliver_append (a b : List (List Char)) : deliver (a ++ b) = deliver a ++ deliver b := by
  unfold deliver
  simp

theorem process_lines_eq_aux (n : ℕ) :
    ∀ s : List Char, s.length ≤ n →
      process_lines s = (deliver (scan_lines [] s).1, (scan_lines [] s).2) := by
  induction n with
  | zero =>
    intro s hs
    have : s = [] := List.eq_nil_of_length_eq_zero (by omega)
    subst this
    rw [process_lines_of_none (by decide)]
    simp [scan_lines, deliver]
  | succ n ih =>
    intro s hn
    rcases find_newline_cases s with ⟨hnone, hmem⟩ | ⟨l, rest, hs, hl, hsome⟩
    · rw [process_lines_of_none hnone, scan_lines_of_no_newline [] s hmem]
      simp [deliver]
    · have htake : s.take l.length = l := by
        rw [hs]
        simp
      have hdrop : s.drop (l.length + 1) = rest := by
        rw [hs]
        simp
      have hlen : rest.length ≤ n := by
        rw [hs] at hn
        simp at hn
        omega
      have ihr := ih rest hlen
      rw [process_lines_of_some hsome, htake, hdrop, ihr, hs, scan_lines_of_newline [] l rest hl]
      simp only [List.nil_append, deliver_cons]
      split_ifs <;> rfl

/-- The inner loop delivers the trimmed, non-empty complete lines of the buffer and keeps the
bytes after the last line feed. -/
theorem process_lines_eq (s : List Char) :
    process_lines s = (deliver (scan_lines [] s).1, (scan_lines [] s).2) :=
  process_lines_eq_aux s.length s le_rfl

theorem scan_lines_pending_no_newline (cur s : List Char) (h : '\n' ∉ cur) :
    '\n' ∉ (scan_lines cur s).2 := by
  induction s generalizing cur with
  | nil => simpa [scan_lines] using h
  | cons c s ih =>
    by_cases hc : c = '\n'
    · simp only [scan_lines, hc, if_true]
      exact ih [] (by simp)
    · simp only [scan_lines, hc, if_false]
      exact ih (cur ++ [c]) (by simp [h, Ne.symm hc])

theorem scan_lines_lines_no_newline (cur s : List Char) (h : '\n' ∉ cur) :
    ∀ l ∈ (scan_lines cur s).1, '\n' ∉ l := by
  induction s generalizing cur with
  | nil => simp [scan_lines]
  | cons c s ih =>
    by_cases hc : c = '\n'
    · simp only [scan_lines, hc, if_true, List.mem_cons]
      rintro l (rfl | hl)
      · exact h
      · exact ih [] (by simp) l hl
    · simp only [scan_lines, hc, if_false]
      exact ih (cur ++ [c]) (by simp [h, Ne.symm hc])

theorem scan_lines_join (cur s : List Char) :
    ((scan_lines cur s).1.map (fun l => l ++ ['\n'])).flatten ++ (scan_lines cur s).2 = cur ++ s := by
  induction s generalizing cur with
  | nil => simp [scan_lines]
  | cons c s ih =>
    by_cases hc : c = '\n'
    · simp only [scan_lines, hc, if_true, List.map_cons, List.flatten_cons, List.append_assoc]
      rw [ih []]
      simp
    · simp only [scan_lines, hc, if_false]
      rw [ih (cur ++ [c])]
      simp

theorem c_str_of_no_nul {chunk : List Char} (h : Char.ofNat 0 ∉ chunk) : c_str chunk = chunk := by
  unfold c_str
  rw [List.takeWhile_eq_self_iff]
  intro c hc
  have : c ≠ Char.ofNat 0 := fun e => h (e ▸ hc)
  simpa using this

theorem rx_iteration_eq_scan (line_buffer chunk : List Char) :
    rx_iteration line_buffer chunk
      = if chunk.length > 0 then
          (deliver (scan_lines [] (line_buffer ++ c_str chunk)).1,
            (scan_lines [] (line_buffer ++ c_str chunk)).2)
        else ([], line_buffer) := by
  unfold rx_iteration
  rw [process_lines_eq]

theorem rx_iteration_eq (line_buffer chunk : List Char) (hbuf : '\n' ∉ line_buffer)
    (hnul : Char.ofNat 0 ∉ chunk) :
    rx_iteration line_buffer chunk
      = (deliver (scan_lines line_buffer chunk).1, (scan_lines line_buffer chunk).2) := by
  rw [rx_iteration_eq_scan, c_str_of_no_nul hnul]
  split_ifs with h
  · rw [scan_lines_append, scan_lines_of_no_newline [] line_buffer hbuf]
    simp
  · have : chunk = [] := List.eq_nil_of_length_eq_zero (by omega)
    subst this
    simp [scan_lines, deliver]

/-- On reads without NUL bytes the receive loop delivers the trimmed, non-empty complete lines
of the concatenated reads, starting from a buffer without line feed. -/
theorem rx_loop_eq (line_buffer : List Char) (reads : List (List Char))
    (hbuf : '\n' ∉ line_buffer) (hnul : ∀ chunk ∈ reads, Char.ofNat 0 ∉ chunk) :
    rx_loop line_buffer reads
      = (deliver (scan_lines line_buffer reads.flatten).1, (scan_lines line_buffer reads.flatten).2) := by
  induction reads generalizing line_buffer with
  | nil => simp [rx_loop, scan_lines, deliver]
  | cons chunk reads ih =>
    have h1 := rx_iteration_eq line_buffer chunk hbuf (hnul chunk (by simp))
    have hbuf2 : '\n' ∉ (scan_lines line_buffer chunk).2 :=
      scan_lines_pending_no_newline line_buffer chunk hbuf
    have h2 := ih (scan_lines line_buffer chunk).2 hbuf2 (fun c hc => hnul c (by simp [hc]))
    simp only [rx_loop, h1, h2, List.flatten_cons]
    rw [scan_lines_append, deliver_append]

theorem trim_cr_no_newline {l : List Char} (h : '\n' ∉ l) : '\n' ∉ trim_cr l := by
  unfold trim_cr
  split_ifs
  · exact fun hm => h (List.mem_of_mem_dropLast hm)
  · exact h

theorem deliver_payloads (ls : List (List Char)) (h : ∀ l ∈ ls, '\n' ∉ l) :
    ∀ p ∈ deliver ls, p ≠ [] ∧ '\n' ∉ p := by
  intro p hp
  unfold deliver at hp
  simp only [List.mem_filter, List.mem_map] at hp
  obtain ⟨⟨l, hl, rfl⟩, hne⟩ := hp
  refine ⟨?_, trim_cr_no_newline (h l hl)⟩
  intro he
  rw [he] at hne
  simp at hne

/-- C14 (amended): for reads that contain no NUL byte, the callback payloads are, in order,
the byte sequences that precede each line feed of the concatenated reads (since the previous
line feed), each with one trailing carriage return removed and the empty ones left out; no
payload is empty or contains a line feed, and the bytes after the last line feed stay in the
buffer. -/
theorem rx_loop_delivers_complete_lines (reads : List (List Char))
    (hnul : ∀ chunk ∈ reads, Char.ofNat 0 ∉ chunk) :
    (rx_loop [] reads).1 = deliver (scan_lines [] reads.flatten).1 ∧
    (rx_loop [] reads).2 = (scan_lines [] reads.flatten).2 ∧
    ((scan_lines [] reads.flatten).1.map (fun l => l ++ ['\n'])).flatten
        ++ (scan_lines [] reads.flatten).2 = reads.flatten ∧
    (∀ l ∈ (scan_lines [] reads.flatten).1, '\n' ∉ l) ∧
    '\n' ∉ (scan_lines [] reads.flatten).2 ∧
    (∀ p ∈ (rx_loop [] reads).1, p ≠ [] ∧ '\n' ∉ p) := by
  have h := rx_loop_eq [] reads (by simp) hnul
  have hl := scan_lines_lines_no_newline [] reads.flatten (by simp)
  refine ⟨by rw [h], by rw [h], ?_, hl, scan_lines_pending_no_newline [] _ (by simp), ?_⟩
  · simpa using scan_lines_join [] reads.flatten
  · rw [h]
    exact deliver_payloads _ hl

theorem rx_loop_delivers_complete_lines_witness :
    (∀ chunk ∈ ["IR:SC".toList, "AN\r\nhe".toList, "llo\n\nxy".toList], Char.ofNat 0 ∉ chunk) ∧
    (rx_loop [] ["IR:SC".toList, "AN\r\nhe".toList, "llo\n\nxy".toList]).1
      = ["IR:SCAN".toList, "hello".toList] ∧
    (rx_loop [] ["IR:SC".toList, "AN\r\nhe".toList, "llo\n\nxy".toList]).2 = "xy".toList := by
  have hnul : ∀ chunk ∈ ["IR:SC".toList, "AN\r\nhe".toList, "llo\n\nxy".toList],
      Char.ofNat 0 ∉ chunk := by decide
  have h := rx_loop_delivers_complete_lines _ hnul
  refine ⟨hnul, ?_, ?_⟩
  · rw [h.1]
    decide
  · rw [h.2.1]
    decide

/-- C14 (counterexample): when one read returns the bytes `a`, NUL, `b`, line feed, only `a`
reaches the buffer, so no callback is made although the stream holds the complete non-empty
line `a NUL b`. -/
theorem rx_loop_drops_bytes_after_nul :
    (rx_loop [] [['a', Char.ofNat 0, 'b', '\n']]).1 = [] ∧
    (rx_loop [] [['a', Char.ofNat 0, 'b', '\n']]).2 = ['a'] ∧
    deliver (scan_lines [] [['a', Char.ofNat 0, 'b', '\n']].flatten).1
      = [['a', Char.ofNat 0, 'b']] := by
  refine ⟨?_, ?_, by decide⟩
  · simp only [rx_loop, rx_iteration_eq_scan]
    decide
  · simp only [rx_loop, rx_iteration_eq_scan]
    decide

/-- C15 (amended): two sequences of reads without NUL bytes that concatenate to the same byte
stream produce the same callback payloads in the same order and leave the same buffer. -/
theorem rx_loop_independent_of_read_boundaries (reads₁ reads₂ : List (List Char))
    (h₁ : ∀ chunk ∈ reads₁, Char.ofNat 0 ∉ chunk) (h₂ : ∀ chunk ∈ reads₂, Char.ofNat 0 ∉ chunk)
    (hcat : reads₁.flatten = reads₂.flatten) :
    rx_loop [] reads₁ = rx_loop [] reads₂ := by
  rw [rx_loop_eq [] reads₁ (by simp) h₁, rx_loop_eq [] reads₂ (by simp) h₂, hcat]

theorem rx_loop_independent_of_read_boundaries_witness :
    ["IR:SC".toList, "AN\r\nhe".toList].flatten = ["IR:SCAN\r".toList, "\nhe".toList].flatten ∧
    rx_loop [] ["IR:SC".toList, "AN\r\nhe".toList]
      = rx_loop [] ["IR:SCAN\r".toList, "\nhe".toList] :=
  ⟨by decide,
    rx_loop_independent_of_read_boundaries ["IR:SC".toList, "AN\r\nhe".toList]
      ["IR:SCAN\r".toList, "\nhe".toList] (by decide) (by decide) (by decide)⟩

/-- C15 (counterexample): the bytes `a`, NUL, `b`, line feed delivered in one read produce no
callback, but split into the reads `a NUL` and `b LF` they produce the payload `ab`. -/
theorem rx_loop_depends_on_read_boundaries :
    [['a', Char.ofNat 0, 'b', '\n']].flatten = [['a', Char.ofNat 0], ['b', '\n']].flatten ∧
    (rx_loop [] [['a', Char.ofNat 0, 'b', '\n']]).1 = [] ∧
    (rx_loop [] [['a', Char.ofNat 0], ['b', '\n']]).1 = [['a', 'b']] := by
  refine ⟨by decide, ?_, ?_⟩
  · simp only [rx_loop, rx_iteration_eq_scan]
    decide
  · simp only [rx_loop, rx_iteration_eq_scan]
    decide

end Radar
